import Mathlib

/-!
# Shallow embedding of the database migration runner

This file embeds the migration subsystem of the repository
(`src/database/migrations/migrate.py` and
`src/database/migrations/container_migrate.py`) in Lean 4 and proves the
specification claims about it.

Modelling conventions:

* Python strings are Lean `String`s; every operation the source performs on
  them (comparison, `split`, `strip`, `replace`, `lower`, `title`,
  `endswith`) is implemented below over `String.data` (`List Char`) by
  structural recursion, mirroring Python's code-point semantics.  ASCII is
  assumed for the case functions, which matches Lean's `Char.toLower` /
  `Char.toUpper`.
* The database is a `DBState S`: an abstract schema `S` plus the ledger
  table (`schema_migrations`) as a list of rows.  Executing one SQL
  statement is an abstract parameter `exec : S → List Char → Option S`;
  `none` models a raised `MySQLError`.  The `version VARCHAR(255) PRIMARY
  KEY` column makes a duplicate `INSERT` into the ledger fail, which the
  model reflects.
* Transactions: the runner commits after each migration and rolls back the
  current transaction on failure.  In the pure model a commit keeps the new
  state and a rollback keeps the previous committed state.
* Exceptions raised by `_get_connection`, `_ensure_migrations_table` and
  the ledger `SELECT` are injected through `Option String` fault
  parameters; `none` means the step succeeds.
* Wall-clock execution time cannot be modelled; `execution_time_ms` is
  recorded as `0`.  `sha256` is an abstract parameter
  `checksum : String → String`.  Error strings keep the version-naming
  shape of the source but elide the wrapped exception text.
-/

namespace MigrationRunner

/-! ## Python string primitives over `List Char` -/

/-- Code-point lexicographic `<` on character lists: Python's `str` `<`. -/
def lexLt : List Char → List Char → Bool
  | [], [] => false
  | [], _ :: _ => true
  | _ :: _, [] => false
  | a :: as, b :: bs => if a < b then true else if b < a then false else lexLt as bs

/-- Code-point lexicographic `≤`, defined as the negation of flipped `<`. -/
def lexLe (a b : List Char) : Bool := !(lexLt b a)

/-- Python `str.strip()` (whitespace from both ends). -/
def pyStripData (l : List Char) : List Char :=
  ((l.dropWhile Char.isWhitespace).reverse.dropWhile Char.isWhitespace).reverse

/-- Python `str.split(sep)` with a single-character separator (full split). -/
def splitOnCharData (sep : Char) : List Char → List (List Char)
  | [] => [[]]
  | c :: cs =>
    match splitOnCharData sep cs with
    | [] => [[]]
    | h :: t => if c = sep then [] :: h :: t else (c :: h) :: t

/-- Joins pieces with a single-character separator (inverse of the split). -/
def intercalateChar (sep : Char) : List (List Char) → List Char
  | [] => []
  | [x] => x
  | x :: y :: rest => x ++ sep :: intercalateChar sep (y :: rest)

/-- Python `str.split(sep, 2)`: at most two splits, remainder kept joined. -/
def split2Data (sep : Char) (l : List Char) : List (List Char) :=
  match splitOnCharData sep l with
  | a :: b :: c :: rest => [a, b, intercalateChar sep (c :: rest)]
  | xs => xs

/-- Python `str.replace('.sql', '')`: removes every (left-to-right,
non-overlapping) occurrence of `.sql`. -/
def removeSqlData : List Char → List Char
  | '.' :: 's' :: 'q' :: 'l' :: rest => removeSqlData rest
  | c :: rest => c :: removeSqlData rest
  | [] => []

/-- Python single-character `str.replace(a, b)`. -/
def pyReplaceChar (a b : Char) (s : String) : String :=
  ⟨s.data.map (fun c => if c = a then b else c)⟩

/-- Python `str.lower()` (ASCII, matching Lean's `Char.toLower`). -/
def pyLower (s : String) : String := ⟨s.data.map Char.toLower⟩

/-- Python `str.title()` scanner: the flag records whether the previous
character was alphabetic (cased); an alphabetic character starting a word is
upper-cased, every other alphabetic character is lower-cased. -/
def pyTitleData : Bool → List Char → List Char
  | _, [] => []
  | prevAlpha, c :: rest =>
    (if c.isAlpha then (if prevAlpha then c.toLower else c.toUpper) else c)
      :: pyTitleData c.isAlpha rest

/-- Python `str.title()`. -/
def pyTitle (s : String) : String := ⟨pyTitleData false s.data⟩

/-- Python `str.endswith(pat)`. -/
def strEndsWith (s pat : String) : Bool := pat.data.isSuffixOf s.data

/-! ## Data model -/

/-- One row of the `schema_migrations` ledger table (`applied_at` is set by
the database clock and is not modelled). -/
structure LedgerEntry where
  version : String
  name : String
  checksum : String
  execution_time_ms : Nat
deriving DecidableEq

/-- The target database: abstract schema plus the ledger table. -/
structure DBState (S : Type) where
  schema : S
  ledger : List LedgerEntry
deriving DecidableEq

/-- A discovered migration (class `Migration`): parsed version and display
name plus the backing file (name and content). -/
structure Migration where
  version : String
  name : String
  filename : String
  content : String
deriving DecidableEq

/-- The dictionary returned by `run_migrations`. -/
structure RunResult where
  applied_migrations : List String
  skipped_migrations : List String
  total_execution_time_ms : Nat
  success : Bool
  error : Option String
deriving DecidableEq

/-- The dictionary returned by `rollback_migration`. -/
structure RollbackResult where
  rolled_back_migrations : List String
  success : Bool
  error : Option String
deriving DecidableEq

/-- The dictionary returned by `get_migration_status` on success.
`applied_migrations` keeps `(version, name)` pairs, `pending_migrations`
keeps `(version, name, file_path)` triples. -/
structure MigrationStatus where
  applied_count : Nat
  pending_count : Nat
  total_available : Nat
  applied_migrations : List (String × String)
  pending_migrations : List (String × String × String)
deriving DecidableEq

/-- Injected failures for the steps of a run that touch the database
outside migration statements: `_get_connection`,
`_ensure_migrations_table`, `_get_applied_migrations`.  `none` = success. -/
structure RunnerFaults where
  connect_error : Option String
  ensure_table_error : Option String
  read_applied_error : Option String
deriving DecidableEq

/-- All database side-steps succeed. -/
def noFaults : RunnerFaults := ⟨none, none, none⟩

/-- The filesystem contents of the migrations directory:
`(filename, file content)` pairs. -/
abbrev MigrationsDir := List (String × String)

/-! ## Filename parser / validator -/

/-- `MigrationRunner._is_valid_migration_filename`: strip `.sql`
occurrences, split on `_` at most twice, demand an 8-digit date part and a
6-digit time part. -/
def _is_valid_migration_filename (filename : String) : Bool :=
  match split2Data '_' (removeSqlData filename.data) with
  | date :: time :: _ :: _ =>
    (date.length = 8 : Bool) && date.all Char.isDigit
      && (time.length = 6 : Bool) && time.all Char.isDigit
  | _ => false

/-- `MigrationRunner._parse_migration_filename`: version is
`parts[0]_parts[1]`, the display name replaces `_` by spaces in `parts[2]`
and title-cases it.  (The source indexes `parts[0]`/`parts[1]`
unconditionally; it is only called on validated names, so the fallback
branches here are unreachable in practice.) -/
def _parse_migration_filename (filename : String) : String × String :=
  match split2Data '_' (removeSqlData filename.data) with
  | p0 :: p1 :: p2 :: _ =>
    (⟨p0 ++ '_' :: p1⟩, pyTitle (pyReplaceChar '_' ' ' ⟨p2⟩))
  | [p0, p1] => (⟨p0 ++ '_' :: p1⟩, "Unnamed Migration")
  | _ => ("", "Unnamed Migration")

/-! ## Migration source (discovery) -/

/-- Ascending order on directory entries by filename, the order of Python's
`sorted()` over the globbed paths. -/
def fileLe (a b : String × String) : Prop := lexLe a.1.data b.1.data = true

instance : DecidableRel fileLe := fun _ _ => instDecidableEqBool _ _

/-- The loop body of `_discover_migration_files`: skip `.rollback.sql`
companions and invalid names, parse the rest into a `Migration`. -/
def discoverOne (f : String × String) : Option Migration :=
  if strEndsWith f.1 ".rollback.sql" then none
  else if _is_valid_migration_filename f.1 then
    some { version := (_parse_migration_filename f.1).1
           name := (_parse_migration_filename f.1).2
           filename := f.1
           content := f.2 }
  else none

/-- `MigrationRunner._discover_migration_files`: glob `*.sql`, sort by
filename, skip `.rollback.sql` companions and invalid names, parse the
rest.  (Python's `sorted` is a stable sort; filenames in a directory are
distinct, so the choice of insertion sort is observationally identical.) -/
def _discover_migration_files (files : MigrationsDir) : List Migration :=
  (List.insertionSort fileLe
    (files.filter (fun f => strEndsWith f.1 ".sql"))).filterMap discoverOne

/-- Whether a valid filename literally starts with its parsed 15-character
version followed by an underscore — equivalently, `.sql` occurs in it only
as the final extension.  Filenames following the documented naming
convention always satisfy this; it can fail only when `.sql` is embedded
earlier in the name, because `replace('.sql', '')` removes every
occurrence before the version is extracted. -/
def versionIsFilenameStart (f : String) : Bool :=
  f.data.take 16 == ((_parse_migration_filename f).1.data ++ ['_'])

/-! ## Statement splitting and execution -/

/-- Splitting of a migration file into statements:
`[stmt.strip() for stmt in sql_content.split(';') if stmt.strip()]`. -/
def migrationStatements (content : String) : List (List Char) :=
  ((splitOnCharData ';' content.data).map pyStripData).filter (fun s => !s.isEmpty)

/-- Runs statements in order on the open transaction; `none` models the
first raised `MySQLError` aborting the migration. -/
def execStatements {S : Type} (exec : S → List Char → Option S) :
    S → List (List Char) → Option S
  | s, [] => some s
  | s, stmt :: rest =>
    match exec s stmt with
    | none => none
    | some s' => execStatements exec s' rest

/-- The versions present in the ledger (the keys of the dict built by
`_get_applied_migrations`; key membership equals list membership). -/
def appliedVersions (ledger : List LedgerEntry) : List String :=
  ledger.map fun e => e.version

/-- `MigrationRunner._execute_migration`: run the file's statements, then
`INSERT` the ledger row in the same transaction.  A duplicate version makes
the `INSERT` violate the `PRIMARY KEY` and raise, modelled by `none`.
Execution time is recorded as `0` (wall clock is outside the model). -/
def _execute_migration {S : Type} (exec : S → List Char → Option S)
    (checksum : String → String) (st : DBState S) (m : Migration) :
    Option (DBState S) :=
  match execStatements exec st.schema (migrationStatements m.content) with
  | none => none
  | some s' =>
    if (appliedVersions st.ledger).contains m.version then none
    else some ⟨s', st.ledger ++ [⟨m.version, m.name, checksum m.content, 0⟩]⟩

/-! ## Forward runner -/

/-- The initial `results` dictionary of `run_migrations`. -/
def emptyRunResult : RunResult :=
  { applied_migrations := []
    skipped_migrations := []
    total_execution_time_ms := 0
    success := true
    error := none }

/-- Error text of `MigrationError(f"Migration {version} failed: {e}")`
(the wrapped exception text is elided). -/
def migrationFailedMsg (v : String) : String := "Migration " ++ v ++ " failed"

/-- Error text of `MigrationError(f"Database connection failed: {e}")`. -/
def connectFailedMsg (e : String) : String := "Database connection failed: " ++ e

/-- Error text of `MigrationError(f"Could not create migrations table: {e}")`. -/
def ensureTableFailedMsg (e : String) : String :=
  "Could not create migrations table: " ++ e

/-- Error text of `MigrationError(f"Could not retrieve applied migrations: {e}")`. -/
def readAppliedFailedMsg (e : String) : String :=
  "Could not retrieve applied migrations: " ++ e

/-- The `if target_version and migration.version > target_version` guard
(Python truthiness: `None` and the empty string are falsy). -/
def pastTarget (target : Option String) (v : String) : Bool :=
  match target with
  | none => false
  | some t => (!(t == "")) && lexLt t.data v.data

/-- Pending migrations: discovered files whose version has no ledger row. -/
def pendingOf (ledger : List LedgerEntry) (files : MigrationsDir) :
    List Migration :=
  (_discover_migration_files files).filter
    (fun m => !((appliedVersions ledger).contains m.version))

/-- The per-migration loop of `run_migrations`: skip versions beyond the
target, otherwise execute and commit; on failure roll back the transaction
(keep the last committed state), record the error and `break`. -/
def applyPending {S : Type} (exec : S → List Char → Option S)
    (checksum : String → String) (target : Option String) :
    DBState S → List Migration → RunResult → RunResult × DBState S
  | st, [], res => (res, st)
  | st, m :: rest, res =>
    if pastTarget target m.version then
      applyPending exec checksum target st rest
        { res with skipped_migrations := res.skipped_migrations ++ [m.version] }
    else
      match _execute_migration exec checksum st m with
      | some st' =>
        applyPending exec checksum target st' rest
          { res with
              applied_migrations := res.applied_migrations ++ [m.version]
              total_execution_time_ms := res.total_execution_time_ms + 0 }
      | none =>
        ({ res with success := false, error := some (migrationFailedMsg m.version) }, st)

/-- `MigrationRunner.run_migrations`.  Connection, table creation and the
ledger read may each raise (fault parameters); then pending migrations are
computed and applied in order, committing after each one and stopping at
the first failure.  All exceptions are caught and turned into a result
dictionary. -/
def run_migrations {S : Type} (exec : S → List Char → Option S)
    (checksum : String → String) (faults : RunnerFaults) (st : DBState S)
    (files : MigrationsDir) (target : Option String) :
    RunResult × DBState S :=
  match faults.connect_error with
  | some e =>
    ({ emptyRunResult with success := false, error := some (connectFailedMsg e) }, st)
  | none =>
  match faults.ensure_table_error with
  | some e =>
    ({ emptyRunResult with success := false, error := some (ensureTableFailedMsg e) }, st)
  | none =>
  match faults.read_applied_error with
  | some e =>
    ({ emptyRunResult with success := false, error := some (readAppliedFailedMsg e) }, st)
  | none =>
    let pending := pendingOf st.ledger files
    if pending.isEmpty then (emptyRunResult, st)
    else applyPending exec checksum target st pending emptyRunResult

/-! ## Rollback -/

/-- The initial `results` dictionary of `rollback_migration`. -/
def emptyRollbackResult : RollbackResult :=
  { rolled_back_migrations := [], success := true, error := none }

/-- Error text of `f"Rollback failed for {version}: {e}"` (exception text
elided). -/
def rollbackFailedMsg (v : String) : String := "Rollback failed for " ++ v

/-- The rollback companion filename
`f"{version}_{name.lower().replace(' ', '_')}.rollback.sql"`. -/
def rollbackFilename (version name : String) : String :=
  version ++ "_" ++ pyReplaceChar ' ' '_' (pyLower name) ++ ".rollback.sql"

/-- Reads a file from the migrations directory. -/
def lookupFile (files : MigrationsDir) (fname : String) : Option String :=
  (files.find? (fun f => f.1 == fname)).map Prod.snd

/-- Descending order by version, the `ORDER BY version DESC` of the
rollback `SELECT`. -/
def pairDesc (a b : String × String) : Prop := lexLe b.1.data a.1.data = true

instance : DecidableRel pairDesc := fun _ _ => instDecidableEqBool _ _

/-- The per-version loop of `rollback_migration`: a missing rollback script
is skipped with a warning; otherwise the script's statements run and the
ledger row is deleted in one transaction, committed per version; a failure
rolls back only that attempt and halts the sequence. -/
def rollbackLoop {S : Type} (exec : S → List Char → Option S)
    (files : MigrationsDir) :
    DBState S → List (String × String) → RollbackResult →
      RollbackResult × DBState S
  | st, [], res => (res, st)
  | st, (v, n) :: rest, res =>
    match lookupFile files (rollbackFilename v n) with
    | none => rollbackLoop exec files st rest res
    | some content =>
      match execStatements exec st.schema (migrationStatements content) with
      | none =>
        ({ res with success := false, error := some (rollbackFailedMsg v) }, st)
      | some s' =>
        rollbackLoop exec files ⟨s', st.ledger.filter (fun e => !(e.version == v))⟩ rest
          { res with
              rolled_back_migrations := res.rolled_back_migrations ++ [v] }

/-- `MigrationRunner.rollback_migration`: select the ledger rows with
version strictly greater than the target in descending order and run the
rollback loop.  `connect_error` models a failed `_get_connection`,
`select_error` a raised cursor `SELECT` (caught by the outer handler with
its raw message). -/
def rollback_migration {S : Type} (exec : S → List Char → Option S)
    (connect_error select_error : Option String) (st : DBState S)
    (files : MigrationsDir) (target : String) :
    RollbackResult × DBState S :=
  match connect_error with
  | some e =>
    ({ emptyRollbackResult with success := false, error := some (connectFailedMsg e) }, st)
  | none =>
  match select_error with
  | some e =>
    ({ emptyRollbackResult with success := false, error := some e }, st)
  | none =>
    let toRollback :=
      List.insertionSort pairDesc
        ((st.ledger.filter (fun e => lexLt target.data e.version.data)).map
          (fun e => (e.version, e.name)))
    if toRollback.isEmpty then (emptyRollbackResult, st)
    else rollbackLoop exec files st toRollback emptyRollbackResult

/-! ## Status reporter -/

/-- Ascending order on ledger rows by version (`ORDER BY version`). -/
def entryLe (a b : LedgerEntry) : Prop := lexLe a.version.data b.version.data = true

instance : DecidableRel entryLe := fun _ _ => instDecidableEqBool _ _

/-- Keeps the first row of each version, dropping later duplicates: the
Python dict keyed by version built by `_get_applied_migrations`.  (The
`PRIMARY KEY` makes duplicates impossible in reachable states.) -/
def dedupByVersion : List String → List LedgerEntry → List LedgerEntry
  | _, [] => []
  | seen, e :: rest =>
    if seen.contains e.version then dedupByVersion seen rest
    else e :: dedupByVersion (e.version :: seen) rest

/-- `MigrationRunner._get_applied_migrations`: the applied rows ordered by
version, as the version-keyed dict. -/
def _get_applied_migrations (ledger : List LedgerEntry) : List LedgerEntry :=
  dedupByVersion [] (List.insertionSort entryLe ledger)

/-- `MigrationRunner.get_migration_status`: a pure read returning counts
and listings, or `{'error': str(e)}` when a database step raises.
(`applied_at` timestamps are outside the model; applied entries are
reported as `(version, name)` pairs, pending ones as
`(version, name, file_path)`.) -/
def get_migration_status {S : Type} (faults : RunnerFaults) (st : DBState S)
    (files : MigrationsDir) : Except String MigrationStatus :=
  match faults.connect_error with
  | some e => .error (connectFailedMsg e)
  | none =>
  match faults.ensure_table_error with
  | some e => .error (ensureTableFailedMsg e)
  | none =>
  match faults.read_applied_error with
  | some e => .error (readAppliedFailedMsg e)
  | none =>
    let applied := _get_applied_migrations st.ledger
    let available := _discover_migration_files files
    let pending :=
      available.filter (fun m => !((appliedVersions st.ledger).contains m.version))
    .ok
      { applied_count := applied.length
        pending_count := pending.length
        total_available := available.length
        applied_migrations := applied.map (fun e => (e.version, e.name))
        pending_migrations := pending.map (fun m => (m.version, m.name, m.filename)) }

/-! ## Container orchestration wrapper (`container_migrate.py`)

The wrapper's interaction with the outside world is abstracted by two
boolean traces: `probe i` is whether the readiness probe of attempt `i`
(1-based) reaches the database, and `attemptOk i` whether the full
migration run of retry attempt `i` succeeds. -/

/-- `wait_for_database_ready(max_attempts, delay)`: polls up to
`max_attempts` times and reports whether some attempt succeeded. -/
def wait_for_database_ready (probe : Nat → Bool) (max_attempts : Nat) : Bool :=
  (List.range max_attempts).any fun i => probe (i + 1)

/-- `run_container_migrations()`: retries the full run up to
`retry_count` times and reports whether some attempt succeeded. -/
def run_container_migrations (attemptOk : Nat → Bool) (retry_count : Nat) : Bool :=
  (List.range retry_count).any fun i => attemptOk (i + 1)

/-- What one `migrate` invocation of the container wrapper leaves behind:
which marker files were written and the process exit code. -/
structure ContainerOutcome where
  success_marker : Bool
  failure_marker : Bool
  exit_code : Nat
deriving DecidableEq

/-- The `migrate` branch of `container_migrate.main`: wait for readiness
(exit 1 with no marker if the database never becomes ready), run the
migrations with retries, then write exactly one marker file and exit. -/
def containerMigrateCommand (probe : Nat → Bool) (max_attempts : Nat)
    (attemptOk : Nat → Bool) (retry_count : Nat) : ContainerOutcome :=
  if !(wait_for_database_ready probe max_attempts) then
    { success_marker := false, failure_marker := false, exit_code := 1 }
  else if run_container_migrations attemptOk retry_count then
    { success_marker := true, failure_marker := false, exit_code := 0 }
  else
    { success_marker := false, failure_marker := true, exit_code := 1 }

/-- Specification-side fold: apply a list of migrations in order, each one
committing, stopping at the first failure.  Used to describe the state the
run reaches just before a failing migration. -/
def applyAll {S : Type} (exec : S → List Char → Option S)
    (checksum : String → String) :
    DBState S → List Migration → Option (DBState S)
  | st, [] => some st
  | st, m :: rest =>
    match _execute_migration exec checksum st m with
    | none => none
    | some st' => applyAll exec checksum st' rest

/-- Specification-side fold describing the committed rollback steps: each
pair's script is found, executed, and the next pair follows.  `none` if any
step could not have completed. -/
def applyRollbackPairs {S : Type} (exec : S → List Char → Option S)
    (files : MigrationsDir) : S → List (String × String) → Option S
  | s, [] => some s
  | s, (v, n) :: rest =>
    match lookupFile files (rollbackFilename v n) with
    | none => none
    | some content =>
      match execStatements exec s (migrationStatements content) with
      | none => none
      | some s' => applyRollbackPairs exec files s' rest

/-! ## Order lemmas for the lexicographic primitives -/

theorem lexLt_iff : ∀ a b : List Char, lexLt a b = true ↔ a < b
  | [], [] => by
    simp only [lexLt]
    exact iff_of_false (by simp) (lt_irrefl _)
  | [], _ :: _ => by
    simp only [lexLt]
    exact iff_of_true (by trivial) (List.nil_lt_cons _ _)
  | _ :: _, [] => by
    simp only [lexLt]
    exact iff_of_false (by simp) (List.Lex.not_nil_right _ _)
  | a :: as, b :: bs => by
    simp only [lexLt]
    by_cases hab : a < b
    · rw [if_pos hab]
      exact iff_of_true (by trivial) (List.Lex.rel hab)
    · rw [if_neg hab]
      by_cases hba : b < a
      · rw [if_pos hba]
        refine iff_of_false (by simp) ?_
        intro h
        cases h with
        | rel h' => exact hab h'
        | cons h' => exact lt_irrefl _ hba
      · rw [if_neg hba]
        have hEq : a = b := le_antisymm (not_lt.mp hba) (not_lt.mp hab)
        subst hEq
        rw [lexLt_iff as bs]
        exact (List.Lex.cons_iff).symm

theorem lexLt_eq_false_iff (a b : List Char) : lexLt a b = false ↔ ¬a < b := by
  rw [← Bool.not_eq_true, not_congr (lexLt_iff a b)]

theorem lexLe_iff (a b : List Char) : lexLe a b = true ↔ a ≤ b := by
  rw [lexLe, Bool.not_eq_true', lexLt_eq_false_iff, not_lt]

instance : IsTotal (String × String) fileLe :=
  ⟨fun a b => by simp only [fileLe, lexLe_iff]; exact le_total _ _⟩

instance : IsTrans (String × String) fileLe :=
  ⟨fun a b c h1 h2 => by
    simp only [fileLe, lexLe_iff] at h1 h2 ⊢; exact le_trans h1 h2⟩

instance : IsTotal (String × String) pairDesc :=
  ⟨fun a b => by simp only [pairDesc, lexLe_iff]; exact le_total _ _⟩

instance : IsTrans (String × String) pairDesc :=
  ⟨fun a b c h1 h2 => by
    simp only [pairDesc, lexLe_iff] at h1 h2 ⊢; exact le_trans h2 h1⟩

instance : IsTotal LedgerEntry entryLe :=
  ⟨fun a b => by simp only [entryLe, lexLe_iff]; exact le_total _ _⟩

instance : IsTrans LedgerEntry entryLe :=
  ⟨fun a b c h1 h2 => by
    simp only [entryLe, lexLe_iff] at h1 h2 ⊢; exact le_trans h1 h2⟩

/-- A strict comparison of two equal-length lists is preserved by appending
arbitrary tails: the first position that decides the comparison lies inside
the common length. -/
theorem lexLt_append {u v : List Char} (r s : List Char)
    (hlen : u.length = v.length) (h : lexLt u v = true) :
    lexLt (u ++ r) (v ++ s) = true := by
  rw [lexLt_iff] at h ⊢
  revert hlen
  induction h with
  | nil => intro hlen; simp at hlen
  | @rel a l₁ b l₂ h' =>
    intro _
    exact List.Lex.rel h'
  | @cons a l₁ l₂ h' ih =>
    intro hlen
    exact List.Lex.cons (ih (by simpa using hlen))


/-! ## Basic unfolding lemmas -/

/-- `run_migrations` with no injected database faults reduces to the
pending computation plus the apply loop. -/
theorem run_migrations_noFaults {S : Type} (exec : S → List Char → Option S)
    (checksum : String → String) (st : DBState S) (files : MigrationsDir)
    (target : Option String) :
    run_migrations exec checksum noFaults st files target =
      (if (pendingOf st.ledger files).isEmpty then (emptyRunResult, st)
       else applyPending exec checksum target st (pendingOf st.ledger files)
         emptyRunResult) := rfl

/-- Inversion for a successful `_execute_migration`: the schema advanced
through all statements, the version was fresh, and exactly its ledger row
was appended. -/
theorem _execute_migration_eq_some {S : Type} {exec : S → List Char → Option S}
    {checksum : String → String} {st : DBState S} {m : Migration}
    {st' : DBState S}
    (h : _execute_migration exec checksum st m = some st') :
    st'.ledger = st.ledger ++ [⟨m.version, m.name, checksum m.content, 0⟩] ∧
      (appliedVersions st.ledger).contains m.version = false := by
  unfold _execute_migration at h
  cases hex : execStatements exec st.schema (migrationStatements m.content) with
  | none => rw [hex] at h; exact absurd h (by simp)
  | some s' =>
    rw [hex] at h
    cases hc : (appliedVersions st.ledger).contains m.version with
    | true => rw [hc] at h; simp at h
    | false =>
      simp only [hc, Bool.false_eq_true, if_false, Option.some.injEq] at h
      subst h
      exact ⟨rfl, rfl⟩

/-! ## Claim C9: no exception escapes; failure implies a non-null error -/

/-- The apply loop preserves the invariant that `success` is `true` exactly
when `error` is `none`. -/
theorem applyPending_success_iff_error_none {S : Type}
    (exec : S → List Char → Option S) (checksum : String → String)
    (target : Option String) :
    ∀ (pending : List Migration) (st : DBState S) (res : RunResult),
      (res.success = true ↔ res.error = none) →
      ((applyPending exec checksum target st pending res).1.success = true ↔
        (applyPending exec checksum target st pending res).1.error = none) := by
  intro pending
  induction pending with
  | nil => intro st res h; exact h
  | cons m rest ih =>
    intro st res h
    simp only [applyPending]
    by_cases hskip : pastTarget target m.version = true
    · rw [if_pos hskip]
      exact ih st _ h
    · rw [if_neg hskip]
      cases hexec : _execute_migration exec checksum st m with
      | some st' => exact ih st' _ h
      | none => simp

/-- The rollback loop preserves the same invariant. -/
theorem rollbackLoop_success_iff_error_none {S : Type}
    (exec : S → List Char → Option S) (files : MigrationsDir) :
    ∀ (todo : List (String × String)) (st : DBState S) (res : RollbackResult),
      (res.success = true ↔ res.error = none) →
      ((rollbackLoop exec files st todo res).1.success = true ↔
        (rollbackLoop exec files st todo res).1.error = none) := by
  intro todo
  induction todo with
  | nil => intro st res h; exact h
  | cons vn rest ih =>
    intro st res h
    obtain ⟨v, n⟩ := vn
    simp only [rollbackLoop]
    split
    · exact ih st res h
    · split
      · simp
      · exact ih _ _ h

/-- Claim C9: `run_migrations` and `rollback_migration` never propagate an
exception to the caller — in the embedding both are total functions into
result dictionaries — and for every input and every injected internal
failure (connection, table creation, ledger read/select, statement
failure), the returned dictionary has `success = false` exactly when it has
a non-null `error` string. -/
theorem run_and_rollback_always_return_result {S T : Type}
    (exec : S → List Char → Option S) (checksum : String → String)
    (faults : RunnerFaults) (st : DBState S) (files : MigrationsDir)
    (target : Option String) (rexec : T → List Char → Option T)
    (connect_error select_error : Option String) (rst : DBState T)
    (rfiles : MigrationsDir) (rtarget : String) :
    ((run_migrations exec checksum faults st files target).1.success = true ↔
      (run_migrations exec checksum faults st files target).1.error = none) ∧
    ((rollback_migration rexec connect_error select_error rst rfiles
        rtarget).1.success = true ↔
      (rollback_migration rexec connect_error select_error rst rfiles
        rtarget).1.error = none) := by
  constructor
  · obtain ⟨c, e, r⟩ := faults
    cases c with
    | some msg => simp [run_migrations, emptyRunResult]
    | none =>
      cases e with
      | some msg => simp [run_migrations, emptyRunResult]
      | none =>
        cases r with
        | some msg => simp [run_migrations, emptyRunResult]
        | none =>
          rw [show (RunnerFaults.mk none none none) = noFaults from rfl,
            run_migrations_noFaults]
          by_cases hp : (pendingOf st.ledger files).isEmpty = true
          · rw [if_pos hp]; simp [emptyRunResult]
          · rw [if_neg hp]
            exact applyPending_success_iff_error_none exec checksum target
              (pendingOf st.ledger files) st emptyRunResult
              (by simp [emptyRunResult])
  · cases connect_error with
    | some msg => simp [rollback_migration, emptyRollbackResult]
    | none =>
      cases select_error with
      | some msg => simp [rollback_migration, emptyRollbackResult]
      | none =>
        show ((if (List.insertionSort pairDesc
            ((rst.ledger.filter
              (fun e => lexLt rtarget.data e.version.data)).map
              (fun e => (e.version, e.name)))).isEmpty
            then (emptyRollbackResult, rst)
            else rollbackLoop rexec rfiles rst _ emptyRollbackResult).1.success
            = true) ↔
          ((if (List.insertionSort pairDesc
            ((rst.ledger.filter
              (fun e => lexLt rtarget.data e.version.data)).map
              (fun e => (e.version, e.name)))).isEmpty
            then (emptyRollbackResult, rst)
            else rollbackLoop rexec rfiles rst _ emptyRollbackResult).1.error
            = none)
        by_cases hp : (List.insertionSort pairDesc
            ((rst.ledger.filter
              (fun e => lexLt rtarget.data e.version.data)).map
              (fun e => (e.version, e.name)))).isEmpty = true
        · rw [if_pos hp]; simp [emptyRollbackResult]
        · rw [if_neg hp]
          exact rollbackLoop_success_iff_error_none rexec rfiles _ rst
            emptyRollbackResult (by simp [emptyRollbackResult])
/-! ## Claim C1: fail-fast atomicity of the forward run -/

/-- A successful prefix of applies extends the ledger by exactly the
applied versions, in order. -/
theorem applyAll_versions {S : Type} (exec : S → List Char → Option S)
    (checksum : String → String) :
    ∀ (p : List Migration) (st sti : DBState S),
      applyAll exec checksum st p = some sti →
      appliedVersions sti.ledger =
        appliedVersions st.ledger ++ p.map (fun mg => mg.version) := by
  intro p
  induction p with
  | nil =>
    intro st sti h
    have hst : st = sti := by simpa [applyAll] using h
    subst hst
    simp
  | cons a p ih =>
    intro st sti h
    simp only [applyAll] at h
    cases hex : _execute_migration exec checksum st a with
    | none => rw [hex] at h; exact absurd h (by simp)
    | some st1 =>
      rw [hex] at h
      have h1 := (_execute_migration_eq_some hex).1
      have := ih st1 sti h
      rw [this, appliedVersions, h1]
      simp [appliedVersions]

/-- If a prefix `p` of the pending list applies cleanly and the next
migration `m` raises, the apply loop records exactly the prefix as applied,
flips `success`, stores the error naming `m`, keeps the state committed by
the prefix (rolling back `m` in full), and never attempts the remainder. -/
theorem applyPending_append_fail {S : Type} (exec : S → List Char → Option S)
    (checksum : String → String) :
    ∀ (p : List Migration) (st sti : DBState S) (m : Migration)
      (q : List Migration) (res : RunResult),
      applyAll exec checksum st p = some sti →
      _execute_migration exec checksum sti m = none →
      applyPending exec checksum none st (p ++ m :: q) res =
        ({ res with
             applied_migrations :=
               res.applied_migrations ++ p.map (fun mg => mg.version)
             success := false
             error := some (migrationFailedMsg m.version) }, sti) := by
  intro p
  induction p with
  | nil =>
    intro st sti m q res happ hfail
    have hst : st = sti := by simpa [applyAll] using happ
    subst hst
    simp only [List.nil_append, applyPending]
    rw [if_neg (by simp [pastTarget])]
    rw [hfail]
    simp
  | cons a p ih =>
    intro st sti m q res happ hfail
    simp only [applyAll] at happ
    cases hex : _execute_migration exec checksum st a with
    | none => rw [hex] at happ; exact absurd happ (by simp)
    | some st1 =>
      rw [hex] at happ
      replace happ : applyAll exec checksum st1 p = some sti := happ
      simp only [List.cons_append, applyPending]
      rw [if_neg (by simp [pastTarget])]
      rw [hex]
      change applyPending exec checksum none st1 (p ++ m :: q) _ = _
      rw [ih st1 sti m q _ happ hfail]
      simp [List.append_assoc]

/-- Claim C1: if during a run (no `target`, healthy database connection)
the pending list is `p ++ m :: q`, the migrations of `p` apply cleanly
reaching state `sti`, and some statement of `m` raises
(`_execute_migration` fails), then the run returns exactly the prefix `p`
as applied with `success = false` and an error naming `m`'s version, the
final state is `sti` — so migration `m`'s transaction is rolled back in
full (neither its schema effects nor its ledger row persist) while the
earlier migrations of the run stay committed — and no migration of `q` is
ever attempted.  The second conjunct makes the ledger content explicit:
exactly the versions of `p` were added. -/
theorem run_migrations_atomic_on_failure {S : Type}
    (exec : S → List Char → Option S) (checksum : String → String)
    (st : DBState S) (files : MigrationsDir) (p q : List Migration)
    (m : Migration) (sti : DBState S)
    (hpend : pendingOf st.ledger files = p ++ m :: q)
    (happ : applyAll exec checksum st p = some sti)
    (hfail : _execute_migration exec checksum sti m = none) :
    run_migrations exec checksum noFaults st files none =
      ({ applied_migrations := p.map (fun mg => mg.version)
         skipped_migrations := []
         total_execution_time_ms := 0
         success := false
         error := some (migrationFailedMsg m.version) }, sti) ∧
    appliedVersions sti.ledger =
      appliedVersions st.ledger ++ p.map (fun mg => mg.version) := by
  refine ⟨?_, applyAll_versions exec checksum p st sti happ⟩
  rw [run_migrations_noFaults, hpend]
  rw [if_neg (by simp)]
  rw [applyPending_append_fail exec checksum p st sti m q emptyRunResult happ
    hfail]
  simp [emptyRunResult]

/-- Witness for C1: three pending migrations; the second one's second
statement raises, so only the first is applied and committed, the error
names the second version, and the third is never attempted. -/
theorem run_migrations_atomic_on_failure_witness :
    run_migrations
        (fun (s : Nat) stmt => if stmt = "BOOM".data then none else some (s + 1))
        (fun _ => "h") noFaults ⟨0, []⟩
        [("20240101_000000_a.sql", "A1"),
         ("20240102_000000_b.sql", "X; BOOM"),
         ("20240103_000000_c.sql", "Y")] none =
      ({ applied_migrations := ["20240101_000000"]
         skipped_migrations := []
         total_execution_time_ms := 0
         success := false
         error := some (migrationFailedMsg "20240102_000000") },
       ⟨1, [⟨"20240101_000000", "A", "h", 0⟩]⟩) :=
  (run_migrations_atomic_on_failure
    (fun (s : Nat) stmt => if stmt = "BOOM".data then none else some (s + 1))
    (fun _ => "h") ⟨0, []⟩
    [("20240101_000000_a.sql", "A1"),
     ("20240102_000000_b.sql", "X; BOOM"),
     ("20240103_000000_c.sql", "Y")]
    [⟨"20240101_000000", "A", "20240101_000000_a.sql", "A1"⟩]
    [⟨"20240103_000000", "C", "20240103_000000_c.sql", "Y"⟩]
    ⟨"20240102_000000", "B", "20240102_000000_b.sql", "X; BOOM"⟩
    ⟨1, [⟨"20240101_000000", "A", "h", 0⟩]⟩
    (by decide) (by decide) (by decide)).1
/-! ## Claim C10: a blank migration file is applied with zero statements -/

/-- The split never produces an empty list of pieces. -/
theorem splitOnCharData_ne_nil (sep : Char) :
    ∀ l : List Char, splitOnCharData sep l ≠ [] := by
  intro l
  cases l with
  | nil => simp [splitOnCharData]
  | cons c cs =>
    simp only [splitOnCharData]
    cases h : splitOnCharData sep cs with
    | nil => simp
    | cons x t =>
      by_cases hc : c = sep
      · simp [hc]
      · simp [hc]

/-- Every character of every piece of the split satisfies any predicate
that holds for every non-separator character of the input. -/
theorem splitOnCharData_pieces (sep : Char) (p : Char → Prop) :
    ∀ l : List Char, (∀ c ∈ l, c = sep ∨ p c) →
      ∀ piece ∈ splitOnCharData sep l, ∀ c ∈ piece, p c := by
  intro l
  induction l with
  | nil =>
    intro _ piece hp c hc
    simp [splitOnCharData] at hp
    subst hp
    simp at hc
  | cons a as ih =>
    intro h piece hp c hc
    simp only [splitOnCharData] at hp
    cases hsp : splitOnCharData sep as with
    | nil => exact absurd hsp (splitOnCharData_ne_nil sep as)
    | cons x t =>
      rw [hsp] at hp
      replace hp :
          piece ∈ (if a = sep then [] :: x :: t else (a :: x) :: t) := hp
      have hih := ih (fun d hd => h d (List.mem_cons_of_mem a hd))
      rw [hsp] at hih
      by_cases ha : a = sep
      · rw [if_pos ha] at hp
        rcases List.mem_cons.mp hp with h1 | h2
        · subst h1; simp at hc
        · exact hih piece h2 c hc
      · rw [if_neg ha] at hp
        rcases List.mem_cons.mp hp with h1 | h2
        · subst h1
          rcases List.mem_cons.mp hc with h1 | h2
          · subst h1
            rcases h c (List.mem_cons_self _ _) with h' | h'
            · exact absurd h' ha
            · exact h'
          · exact hih x (List.mem_cons_self _ _) c h2
        · exact hih piece (List.mem_cons_of_mem x h2) c hc

/-- Stripping an all-whitespace piece yields the empty string. -/
theorem pyStripData_eq_nil (l : List Char)
    (h : ∀ c ∈ l, c.isWhitespace = true) : pyStripData l = [] := by
  unfold pyStripData
  rw [List.dropWhile_eq_nil_iff.mpr h]
  simp

/-- A file whose content consists only of semicolons and whitespace
produces an empty statement list. -/
theorem migrationStatements_nil_of_blank (content : String)
    (h : ∀ c ∈ content.data, c = ';' ∨ c.isWhitespace = true) :
    migrationStatements content = [] := by
  unfold migrationStatements
  rw [List.filter_eq_nil_iff]
  intro a ha
  rcases List.mem_map.mp ha with ⟨piece, hpiece, rfl⟩
  have : pyStripData piece = [] :=
    pyStripData_eq_nil piece
      (splitOnCharData_pieces ';' (fun c => c.isWhitespace = true)
        content.data h piece hpiece)
  simp [this]

/-- Claim C10: a pending migration whose file content is empty or contains
only whitespace and semicolons is treated as successfully applied — its
statement list is empty, so the schema is untouched, yet a ledger row with
the file's checksum and an execution time is inserted and the version
appears in the run result's `applied_migrations`. -/
theorem blank_migration_applied {S : Type} (exec : S → List Char → Option S)
    (checksum : String → String) (st : DBState S) (files : MigrationsDir)
    (m : Migration)
    (hws : ∀ c ∈ m.content.data, c = ';' ∨ c.isWhitespace = true)
    (hnew : (appliedVersions st.ledger).contains m.version = false)
    (hpend : pendingOf st.ledger files = [m]) :
    migrationStatements m.content = [] ∧
    _execute_migration exec checksum st m =
      some ⟨st.schema,
        st.ledger ++ [⟨m.version, m.name, checksum m.content, 0⟩]⟩ ∧
    run_migrations exec checksum noFaults st files none =
      ({ applied_migrations := [m.version]
         skipped_migrations := []
         total_execution_time_ms := 0
         success := true
         error := none },
       ⟨st.schema, st.ledger ++ [⟨m.version, m.name, checksum m.content, 0⟩]⟩) := by
  have hstmts : migrationStatements m.content = [] :=
    migrationStatements_nil_of_blank m.content hws
  have hexec : _execute_migration exec checksum st m =
      some ⟨st.schema,
        st.ledger ++ [⟨m.version, m.name, checksum m.content, 0⟩]⟩ := by
    unfold _execute_migration
    rw [hstmts]
    simp only [execStatements]
    rw [hnew]
    simp
  refine ⟨hstmts, hexec, ?_⟩
  rw [run_migrations_noFaults, hpend]
  rw [if_neg (by simp)]
  simp only [applyPending]
  rw [if_neg (by simp [pastTarget])]
  rw [hexec]
  change applyPending exec checksum none _ [] _ = _
  simp [applyPending, emptyRunResult]

/-- Witness for C10: a migration file containing only `"  ;;  "` is
recorded in the ledger and reported as applied. -/
theorem blank_migration_applied_witness :
    migrationStatements "  ;;  " = [] ∧
    _execute_migration (fun (s : Nat) _ => some s) (fun _ => "h")
      ⟨0, []⟩ ⟨"20240101_000000", "Blank", "20240101_000000_blank.sql", "  ;;  "⟩ =
      some ⟨0, [⟨"20240101_000000", "Blank", "h", 0⟩]⟩ ∧
    run_migrations (fun (s : Nat) _ => some s) (fun _ => "h") noFaults ⟨0, []⟩
      [("20240101_000000_blank.sql", "  ;;  ")] none =
      ({ applied_migrations := ["20240101_000000"]
         skipped_migrations := []
         total_execution_time_ms := 0
         success := true
         error := none },
       ⟨0, [⟨"20240101_000000", "Blank", "h", 0⟩]⟩) :=
  blank_migration_applied (fun (s : Nat) _ => some s) (fun _ => "h")
    ⟨0, []⟩ [("20240101_000000_blank.sql", "  ;;  ")]
    ⟨"20240101_000000", "Blank", "20240101_000000_blank.sql", "  ;;  "⟩
    (by decide) (by decide) (by decide)
/-! ## Claim C4: idempotence of a successful run -/

/-- If the apply loop (no target) finishes with `success = true`, the final
ledger contains every version it started with and the version of every
migration of the processed list. -/
theorem applyPending_none_success_versions {S : Type}
    (exec : S → List Char → Option S) (checksum : String → String) :
    ∀ (P : List Migration) (st : DBState S) (res : RunResult)
      (res' : RunResult) (st' : DBState S),
      applyPending exec checksum none st P res = (res', st') →
      res'.success = true →
      (∀ v ∈ appliedVersions st.ledger, v ∈ appliedVersions st'.ledger) ∧
      (∀ m ∈ P, m.version ∈ appliedVersions st'.ledger) := by
  intro P
  induction P with
  | nil =>
    intro st res res' st' h _
    simp only [applyPending] at h
    obtain ⟨h1, h2⟩ := Prod.mk.injEq .. ▸ h
    subst h2
    exact ⟨fun v hv => hv, by simp⟩
  | cons m rest ih =>
    intro st res res' st' h hs
    simp only [applyPending] at h
    rw [if_neg (by simp [pastTarget])] at h
    cases hexec : _execute_migration exec checksum st m with
    | none =>
      rw [hexec] at h
      obtain ⟨h1, _⟩ := Prod.mk.injEq .. ▸ h
      rw [← h1] at hs
      simp at hs
    | some st1 =>
      rw [hexec] at h
      replace h : applyPending exec checksum none st1 rest _ = (res', st') := h
      have hled := (_execute_migration_eq_some hexec).1
      have hmono : ∀ v ∈ appliedVersions st.ledger,
          v ∈ appliedVersions st1.ledger := by
        intro v hv
        rw [appliedVersions, hled]
        simp only [List.map_append, List.mem_append]
        exact Or.inl hv
      have hm1 : m.version ∈ appliedVersions st1.ledger := by
        rw [appliedVersions, hled]
        simp
      obtain ⟨ih1, ih2⟩ := ih st1 _ res' st' h hs
      refine ⟨fun v hv => ih1 v (hmono v hv), ?_⟩
      intro mg hmg
      rcases List.mem_cons.mp hmg with h1 | h2
      · subst h1; exact ih1 mg.version hm1
      · exact ih2 mg h2

/-- Claim C4: after a successful `run_migrations` (no target, healthy
database), a second `run_migrations` over the same directory returns
`applied_migrations = []`, `success = true`, and leaves the state — in
particular the ledger — completely unchanged (no insert, no deletion). -/
theorem run_migrations_idempotent {S : Type}
    (exec : S → List Char → Option S) (checksum : String → String)
    (st st1 : DBState S) (files : MigrationsDir) (res1 : RunResult)
    (h1 : run_migrations exec checksum noFaults st files none = (res1, st1))
    (hs : res1.success = true) :
    run_migrations exec checksum noFaults st1 files none =
      (emptyRunResult, st1) := by
  rw [run_migrations_noFaults] at h1
  by_cases hp : (pendingOf st.ledger files).isEmpty = true
  · rw [if_pos hp] at h1
    obtain ⟨_, h2⟩ := Prod.mk.injEq .. ▸ h1
    subst h2
    rw [run_migrations_noFaults, if_pos hp]
  · rw [if_neg hp] at h1
    have key := applyPending_none_success_versions exec checksum
      (pendingOf st.ledger files) st emptyRunResult res1 st1 h1 hs
    have hpend2 : pendingOf st1.ledger files = [] := by
      rw [pendingOf, List.filter_eq_nil_iff]
      intro m hm
      simp only [appliedVersions, Bool.not_eq_true', Bool.not_eq_false,
        List.contains, List.elem_eq_mem, decide_eq_true_eq]
      by_cases hmem : m.version ∈ appliedVersions st.ledger
      · exact key.1 m.version hmem
      · refine key.2 m ?_
        rw [pendingOf, List.mem_filter]
        refine ⟨hm, ?_⟩
        simp only [appliedVersions, Bool.not_eq_true', List.contains,
          List.elem_eq_mem, decide_eq_false_iff_not]
        exact fun hc => hmem hc
    rw [run_migrations_noFaults, hpend2]
    simp

/-- Witness for C4: one migration applied on the first run; the second run
applies nothing and keeps the state. -/
theorem run_migrations_idempotent_witness :
    run_migrations (fun (s : Nat) _ => some (s + 1)) (fun _ => "h") noFaults
      (run_migrations (fun (s : Nat) _ => some (s + 1)) (fun _ => "h")
        noFaults ⟨0, []⟩ [("20240101_000000_a.sql", "A1")] none).2
      [("20240101_000000_a.sql", "A1")] none =
      (emptyRunResult,
        (run_migrations (fun (s : Nat) _ => some (s + 1)) (fun _ => "h")
          noFaults ⟨0, []⟩ [("20240101_000000_a.sql", "A1")] none).2) :=
  run_migrations_idempotent (fun (s : Nat) _ => some (s + 1)) (fun _ => "h")
    ⟨0, []⟩ _ [("20240101_000000_a.sql", "A1")] _ rfl (by decide)
/-! ## Claim C2: marker files of the container `migrate` command -/

/-- Counterexample to C2 as stated: when the database never becomes ready,
`main`'s `migrate` branch exits 1 *without writing any marker file* — so it
is not true that exactly one of the two markers is written on every
invocation. -/
theorem container_marker_counterexample :
    (containerMigrateCommand (fun _ => false) 30 (fun _ => true) 3).success_marker
        = false ∧
    (containerMigrateCommand (fun _ => false) 30 (fun _ => true) 3).failure_marker
        = false ∧
    (containerMigrateCommand (fun _ => false) 30 (fun _ => true) 3).exit_code = 1 := by
  decide

/-- Claim C2 (amended): a marker file is written iff the readiness wait
succeeds; in that case exactly one of the two markers is written, the
success marker iff the retried migration run succeeded; the exit code is
`0` exactly when the success marker was written.  When the database never
becomes ready, no marker is written and the invocation exits 1. -/
theorem container_marker_exactly_one_after_ready (probe : Nat → Bool)
    (max_attempts : Nat) (attemptOk : Nat → Bool) (retry_count : Nat) :
    (((containerMigrateCommand probe max_attempts attemptOk
          retry_count).success_marker = true ∨
      (containerMigrateCommand probe max_attempts attemptOk
          retry_count).failure_marker = true) ↔
      wait_for_database_ready probe max_attempts = true) ∧
    ¬((containerMigrateCommand probe max_attempts attemptOk
          retry_count).success_marker = true ∧
      (containerMigrateCommand probe max_attempts attemptOk
          retry_count).failure_marker = true) ∧
    ((containerMigrateCommand probe max_attempts attemptOk
        retry_count).success_marker = true ↔
      (wait_for_database_ready probe max_attempts = true ∧
        run_container_migrations attemptOk retry_count = true)) ∧
    ((containerMigrateCommand probe max_attempts attemptOk
        retry_count).exit_code = 0 ↔
      (containerMigrateCommand probe max_attempts attemptOk
          retry_count).success_marker = true) := by
  unfold containerMigrateCommand
  by_cases hw : wait_for_database_ready probe max_attempts = true
  · by_cases hr : run_container_migrations attemptOk retry_count = true
    · simp [hw, hr]
    · simp [hw, hr]
  · simp [hw]

/-- Witness for C2's amended statement: with an immediately-ready database
and a first successful attempt, the success marker alone is written. -/
theorem container_marker_exactly_one_after_ready_witness :
    (containerMigrateCommand (fun _ => true) 30 (fun _ => true) 3).success_marker
        = true :=
  ((container_marker_exactly_one_after_ready (fun _ => true) 30
      (fun _ => true) 3).2.2.1).mpr ⟨by decide, by decide⟩
/-! ## Status lemmas shared by claims C3 and C6 -/

/-- `get_migration_status` with a healthy database, fully evaluated. -/
theorem get_migration_status_noFaults {S : Type} (st : DBState S)
    (files : MigrationsDir) :
    get_migration_status noFaults st files =
      Except.ok
        { applied_count := (_get_applied_migrations st.ledger).length
          pending_count :=
            ((_discover_migration_files files).filter
              (fun m => !((appliedVersions st.ledger).contains m.version))).length
          total_available := (_discover_migration_files files).length
          applied_migrations :=
            (_get_applied_migrations st.ledger).map (fun e => (e.version, e.name))
          pending_migrations :=
            ((_discover_migration_files files).filter
              (fun m => !((appliedVersions st.ledger).contains m.version))).map
              (fun m => (m.version, m.name, m.filename)) } := rfl

/-- Membership in the dedup accumulator characterised. -/
theorem dedupByVersion_mem :
    ∀ (l : List LedgerEntry) (seen : List String) (v : String),
      v ∈ appliedVersions (dedupByVersion seen l) ↔
        (v ∈ appliedVersions l ∧ v ∉ seen) := by
  intro l
  induction l with
  | nil => intro seen v; simp [dedupByVersion, appliedVersions]
  | cons e rest ih =>
    intro seen v
    simp only [dedupByVersion]
    by_cases hc : seen.contains e.version = true
    · rw [if_pos hc]
      rw [ih seen v]
      have hseen : e.version ∈ seen := by
        simpa [List.contains, List.elem_eq_mem] using hc
      simp only [appliedVersions, List.map_cons, List.mem_cons]
      constructor
      · rintro ⟨hv, hns⟩; exact ⟨Or.inr hv, hns⟩
      · rintro ⟨hv | hv, hns⟩
        · subst hv; exact absurd hseen hns
        · exact ⟨hv, hns⟩
    · rw [if_neg hc]
      have hns : e.version ∉ seen := by
        simpa [List.contains, List.elem_eq_mem] using hc
      simp only [appliedVersions, List.map_cons, List.mem_cons]
      rw [show (List.map (fun e => e.version) (dedupByVersion (e.version :: seen) rest)) = appliedVersions (dedupByVersion (e.version :: seen) rest) from rfl,
        ih (e.version :: seen) v]
      simp only [List.mem_cons]
      constructor
      · rintro (hv | ⟨hv, hns2⟩)
        · subst hv; exact ⟨Or.inl rfl, hns⟩
        · exact ⟨Or.inr hv, fun hmem => hns2 (Or.inr hmem)⟩
      · rintro ⟨hv | hv, hns2⟩
        · exact Or.inl hv
        · by_cases hve : v = e.version
          · exact Or.inl hve
          · exact Or.inr ⟨hv, fun hmem => (hmem.elim hve fun h => hns2 h)⟩

/-- The deduplicated version list has no duplicates. -/
theorem dedupByVersion_nodup :
    ∀ (l : List LedgerEntry) (seen : List String),
      (appliedVersions (dedupByVersion seen l)).Nodup := by
  intro l
  induction l with
  | nil => intro seen; simp [dedupByVersion, appliedVersions]
  | cons e rest ih =>
    intro seen
    simp only [dedupByVersion]
    by_cases hc : seen.contains e.version = true
    · rw [if_pos hc]; exact ih seen
    · rw [if_neg hc]
      simp only [appliedVersions, List.map_cons, List.nodup_cons]
      refine ⟨?_, ih (e.version :: seen)⟩
      intro hmem
      have := (dedupByVersion_mem rest (e.version :: seen) e.version).mp hmem
      exact this.2 (List.mem_cons_self _ _)

/-- The dict built by `_get_applied_migrations` has exactly the ledger's
versions as keys. -/
theorem _get_applied_migrations_mem (ledger : List LedgerEntry) (v : String) :
    v ∈ appliedVersions (_get_applied_migrations ledger) ↔
      v ∈ appliedVersions ledger := by
  rw [_get_applied_migrations, dedupByVersion_mem]
  simp only [List.not_mem_nil, not_false_iff, and_true]
  unfold appliedVersions
  constructor
  · intro h
    rcases List.mem_map.mp h with ⟨e, he, rfl⟩
    exact List.mem_map.mpr ⟨e, (List.perm_insertionSort entryLe ledger).mem_iff.mp he, rfl⟩
  · intro h
    rcases List.mem_map.mp h with ⟨e, he, rfl⟩
    exact List.mem_map.mpr ⟨e, (List.perm_insertionSort entryLe ledger).mem_iff.mpr he, rfl⟩

/-- Version keys of the applied dict are distinct. -/
theorem _get_applied_migrations_nodup (ledger : List LedgerEntry) :
    (appliedVersions (_get_applied_migrations ledger)).Nodup :=
  dedupByVersion_nodup _ []

/-- Splitting a list by a boolean predicate splits its length. -/
theorem length_filter_add_length_filter_not {α : Type} (p : α → Bool) :
    ∀ l : List α,
      (l.filter p).length + (l.filter (fun a => !p a)).length = l.length := by
  intro l
  induction l with
  | nil => simp
  | cons a l ih =>
    by_cases ha : p a = true
    · simp [List.filter_cons, ha, ← ih]; omega
    · simp only [Bool.not_eq_true] at ha
      simp [List.filter_cons, ha, ← ih]; omega

/-- Filtering a duplicate-free list by membership in a duplicate-free
sublist of it counts exactly that sublist. -/
theorem length_filter_contains_of_nodup (A L : List String)
    (hA : A.Nodup) (hL : L.Nodup) (hsub : ∀ v ∈ L, v ∈ A) :
    (A.filter (fun v => L.contains v)).length = L.length := by
  have h1 : (A.filter (fun v => L.contains v)).length ≤ L.length := by
    refine List.Subperm.length_le (List.Nodup.subperm (hA.filter _) ?_)
    intro v hv
    have := (List.mem_filter.mp hv).2
    simpa [List.contains, List.elem_eq_mem] using this
  have h2 : L.length ≤ (A.filter (fun v => L.contains v)).length := by
    refine List.Subperm.length_le (List.Nodup.subperm hL ?_)
    intro v hv
    refine List.mem_filter.mpr ⟨hsub v hv, ?_⟩
    simpa [List.contains, List.elem_eq_mem] using hv
  omega

/-- Filtering migrations on a predicate about their version filters the
version list. -/
theorem length_filter_version (q : String → Bool) :
    ∀ l : List Migration,
      (l.filter (fun m => q m.version)).length =
        ((l.map (fun m => m.version)).filter q).length := by
  intro l
  induction l with
  | nil => simp
  | cons m l ih =>
    by_cases hq : q m.version = true
    · simp [List.filter_cons, hq, ih]
    · simp only [Bool.not_eq_true] at hq
      simp [List.filter_cons, hq, ih]
/-! ## Claim C6: status count consistency without drift -/

/-- Claim C6: when every ledger version has a corresponding discovered
migration file (no drift) and discovered versions are pairwise distinct,
`get_migration_status` returns counts with
`applied_count + pending_count = total_available`. -/
theorem status_counts_consistent {S : Type} (st : DBState S)
    (files : MigrationsDir)
    (hnodrift : ∀ e ∈ st.ledger,
      e.version ∈ (_discover_migration_files files).map (fun m => m.version))
    (hnodup : ((_discover_migration_files files).map
      (fun m => m.version)).Nodup) :
    ∃ s, get_migration_status noFaults st files = Except.ok s ∧
      s.applied_count + s.pending_count = s.total_available := by
  refine ⟨_, get_migration_status_noFaults st files, ?_⟩
  show (_get_applied_migrations st.ledger).length +
      ((_discover_migration_files files).filter
        (fun m => !((appliedVersions st.ledger).contains m.version))).length =
    (_discover_migration_files files).length
  have happlied : (_get_applied_migrations st.ledger).length =
      (appliedVersions (_get_applied_migrations st.ledger)).length :=
    (List.length_map _ _).symm
  have hpend := length_filter_version
    (fun v => !((appliedVersions st.ledger).contains v))
    (_discover_migration_files files)
  have hcongr2 :
      ((_discover_migration_files files).map (fun m => m.version)).filter
          (fun v => !((appliedVersions st.ledger).contains v)) =
        ((_discover_migration_files files).map (fun m => m.version)).filter
          (fun v => !((appliedVersions
            (_get_applied_migrations st.ledger)).contains v)) := by
    apply List.filter_congr
    intro v _
    simp [List.contains, List.elem_eq_mem, _get_applied_migrations_mem]
  have hsub : ∀ v ∈ appliedVersions (_get_applied_migrations st.ledger),
      v ∈ (_discover_migration_files files).map (fun m => m.version) := by
    intro v hv
    rw [_get_applied_migrations_mem] at hv
    rcases List.mem_map.mp hv with ⟨e, he, rfl⟩
    exact hnodrift e he
  have hcount := length_filter_contains_of_nodup
    ((_discover_migration_files files).map (fun m => m.version))
    (appliedVersions (_get_applied_migrations st.ledger))
    hnodup (_get_applied_migrations_nodup st.ledger) hsub
  have hsplit := length_filter_add_length_filter_not
    (fun v => (appliedVersions (_get_applied_migrations st.ledger)).contains v)
    ((_discover_migration_files files).map (fun m => m.version))
  rw [happlied, hpend, hcongr2]
  rw [← List.length_map (_discover_migration_files files)
    (fun m => m.version)]
  omega

/-- Witness for C6: one applied, one pending, two discovered. -/
theorem status_counts_consistent_witness :
    ∃ s, get_migration_status noFaults
        (⟨0, [⟨"20240101_000000", "A", "h", 0⟩]⟩ : DBState Nat)
        [("20240101_000000_a.sql", "A1"), ("20240102_000000_b.sql", "B1")] =
        Except.ok s ∧
      s.applied_count + s.pending_count = s.total_available :=
  status_counts_consistent
    (⟨0, [⟨"20240101_000000", "A", "h", 0⟩]⟩ : DBState Nat)
    [("20240101_000000_a.sql", "A1"), ("20240102_000000_b.sql", "B1")]
    (by decide) (by decide)

/-! ## Claim C3: a ledger version with no backing file (drift) -/

/-- Counterexample to C3 as stated: for a ledger holding version
`20240101_120000` and an empty migrations directory, the status folds the
orphan version into `applied_count` (which is `1`, although the number of
ledger rows with a backing file is `0`) and returns the plain record — the
result type has no drift report of any kind. -/
theorem status_drift_counterexample :
    get_migration_status noFaults
        (⟨(), [⟨"20240101_120000", "X", "", 0⟩]⟩ : DBState Unit) [] =
      Except.ok ⟨1, 0, 0, [("20240101_120000", "X")], []⟩ ∧
    ((⟨(), [⟨"20240101_120000", "X", "", 0⟩]⟩ : DBState Unit).ledger.filter
      (fun e =>
        ((_discover_migration_files ([] : MigrationsDir)).map
          (fun m => m.version)).contains e.version)).length = 0 := by
  constructor
  · rfl
  · rfl

/-- Claim C3 (amended): `get_migration_status` does fold an orphan ledger
version into `applied_count` (it also lists it among
`applied_migrations`); no dedicated drift report exists.  Drift is
nevertheless detectable from the returned totals: whenever some ledger
version has no backing file (and discovered versions are distinct),
`total_available < applied_count + pending_count`. -/
theorem status_drift_detectable {S : Type} (st : DBState S)
    (files : MigrationsDir) (e0 : LedgerEntry)
    (hmem : e0 ∈ st.ledger)
    (horphan : e0.version ∉
      (_discover_migration_files files).map (fun m => m.version))
    (hnodup : ((_discover_migration_files files).map
      (fun m => m.version)).Nodup) :
    ∃ s, get_migration_status noFaults st files = Except.ok s ∧
      s.total_available < s.applied_count + s.pending_count ∧
      e0.version ∈ s.applied_migrations.map Prod.fst := by
  refine ⟨_, get_migration_status_noFaults st files, ?_, ?_⟩
  · show (_discover_migration_files files).length <
      (_get_applied_migrations st.ledger).length +
        ((_discover_migration_files files).filter
          (fun m => !((appliedVersions st.ledger).contains m.version))).length
    have he0L : e0.version ∈ appliedVersions (_get_applied_migrations st.ledger) := by
      rw [_get_applied_migrations_mem]
      exact List.mem_map.mpr ⟨e0, hmem, rfl⟩
    have happlied : (_get_applied_migrations st.ledger).length =
        (appliedVersions (_get_applied_migrations st.ledger)).length :=
      (List.length_map _ _).symm
    have hpend := length_filter_version
      (fun v => !((appliedVersions st.ledger).contains v))
      (_discover_migration_files files)
    have hcongr2 :
        ((_discover_migration_files files).map (fun m => m.version)).filter
            (fun v => !((appliedVersions st.ledger).contains v)) =
          ((_discover_migration_files files).map (fun m => m.version)).filter
            (fun v => !((appliedVersions
              (_get_applied_migrations st.ledger)).contains v)) := by
      apply List.filter_congr
      intro v _
      simp [List.contains, List.elem_eq_mem, _get_applied_migrations_mem]
    have hcongr1 :
        ((_discover_migration_files files).map (fun m => m.version)).filter
            (fun v => (appliedVersions
              (_get_applied_migrations st.ledger)).contains v) =
          ((_discover_migration_files files).map (fun m => m.version)).filter
            (fun v => ((appliedVersions
              (_get_applied_migrations st.ledger)).filter
              (fun w => ((_discover_migration_files files).map
                (fun m => m.version)).contains w)).contains v) := by
      apply List.filter_congr
      intro v hv
      simp only [List.contains, List.elem_eq_mem, List.mem_filter]
      simp only [decide_eq_decide]
      constructor
      · intro h
        exact ⟨h, by simpa [List.contains, List.elem_eq_mem] using hv⟩
      · intro h
        exact h.1
    have hcount := length_filter_contains_of_nodup
      ((_discover_migration_files files).map (fun m => m.version))
      ((appliedVersions (_get_applied_migrations st.ledger)).filter
        (fun w => ((_discover_migration_files files).map
          (fun m => m.version)).contains w))
      hnodup ((_get_applied_migrations_nodup st.ledger).filter _)
      (by
        intro v hv
        have := (List.mem_filter.mp hv).2
        simpa [List.contains, List.elem_eq_mem] using this)
    have hshort :
        ((appliedVersions (_get_applied_migrations st.ledger)).filter
          (fun w => ((_discover_migration_files files).map
            (fun m => m.version)).contains w)).length <
          (appliedVersions (_get_applied_migrations st.ledger)).length := by
      refine List.length_filter_lt_length_iff_exists.mpr ⟨e0.version, he0L, ?_⟩
      simpa [List.contains, List.elem_eq_mem] using horphan
    have hsplit := length_filter_add_length_filter_not
      (fun v => (appliedVersions (_get_applied_migrations st.ledger)).contains v)
      ((_discover_migration_files files).map (fun m => m.version))
    rw [happlied, hpend, hcongr2]
    rw [← List.length_map (_discover_migration_files files)
      (fun m => m.version)]
    rw [hcongr1] at hsplit
    omega
  · show e0.version ∈
      ((_get_applied_migrations st.ledger).map
        (fun e => (e.version, e.name))).map Prod.fst
    rw [List.map_map]
    have : e0.version ∈ appliedVersions (_get_applied_migrations st.ledger) := by
      rw [_get_applied_migrations_mem]
      exact List.mem_map.mpr ⟨e0, hmem, rfl⟩
    exact this

/-- Witness for C3's amended statement: an orphan ledger version makes the
totals inconsistent and shows up inside `applied_migrations`. -/
theorem status_drift_detectable_witness :
    ∃ s, get_migration_status noFaults
        (⟨0, [⟨"20240101_000000", "A", "h", 0⟩,
              ⟨"20240103_000000", "Ghost", "h", 0⟩]⟩ : DBState Nat)
        [("20240101_000000_a.sql", "A1"), ("20240102_000000_b.sql", "B1")] =
        Except.ok s ∧
      s.total_available < s.applied_count + s.pending_count ∧
      "20240103_000000" ∈ s.applied_migrations.map Prod.fst :=
  status_drift_detectable
    (⟨0, [⟨"20240101_000000", "A", "h", 0⟩,
          ⟨"20240103_000000", "Ghost", "h", 0⟩]⟩ : DBState Nat)
    [("20240101_000000_a.sql", "A1"), ("20240102_000000_b.sql", "B1")]
    ⟨"20240103_000000", "Ghost", "h", 0⟩
    (by decide) (by decide) (by decide)
/-! ## Claim C8: rollback filename reconstruction -/

/-- A head other than `.` can never start a `.sql` occurrence. -/
theorem removeSqlData_cons_ne (c : Char) (cs : List Char) (hc : c ≠ '.') :
    removeSqlData (c :: cs) = c :: removeSqlData cs := by
  rw [removeSqlData.eq_def]
  split
  · next rest heq =>
    exact absurd (List.cons.inj heq).1 hc
  · next c' rest heq =>
    obtain ⟨h1, h2⟩ := List.cons.inj heq
    rw [h1, h2]
  · next heq => exact absurd heq (by simp)

/-- On a dot-free base name, `replace('.sql', '')` strips exactly the final
extension. -/
theorem removeSqlData_append_sql :
    ∀ l : List Char, '.' ∉ l →
      removeSqlData (l ++ ('.' :: 's' :: 'q' :: 'l' :: [])) = l := by
  intro l
  induction l with
  | nil => intro _; rfl
  | cons c cs ih =>
    intro h
    rw [List.cons_append,
      removeSqlData_cons_ne c _ (fun hEq => h (hEq ▸ List.mem_cons_self c cs)),
      ih (fun hmem => h (List.mem_cons_of_mem c hmem))]

/-- Lower-casing after upper-casing equals plain lower-casing. -/
theorem toLower_toUpper (c : Char) : c.toUpper.toLower = c.toLower := by
  by_cases h : 97 ≤ c.toNat ∧ c.toNat ≤ 122
  · have h128 : c.toNat < 128 := by omega
    have key : ∀ n, n < 128 →
        (Char.ofNat n).toUpper.toLower = (Char.ofNat n).toLower := by decide
    have := key c.toNat h128
    rwa [Char.ofNat_toNat] at this
  · have hup : c.toUpper = c := by
      simp [Char.toUpper, h]
    rw [hup]

/-- Lower-casing is idempotent. -/
theorem toLower_toLower (c : Char) : c.toLower.toLower = c.toLower := by
  by_cases h : 65 ≤ c.toNat ∧ c.toNat ≤ 90
  · have h128 : c.toNat < 128 := by omega
    have key : ∀ n, n < 128 →
        (Char.ofNat n).toLower.toLower = (Char.ofNat n).toLower := by decide
    have := key c.toNat h128
    rwa [Char.ofNat_toNat] at this
  · have hlo : c.toLower = c := by
      simp [Char.toLower, h]
    rw [hlo, hlo]

/-- A character that is not an ASCII capital is fixed by `lower()`. -/
theorem toLower_eq_self (c : Char) (h : ¬(65 ≤ c.toNat ∧ c.toNat ≤ 90)) :
    c.toLower = c := by
  simp [Char.toLower, h]

/-- `lower()` erases whatever casing `title()` installed. -/
theorem map_toLower_pyTitleData :
    ∀ (l : List Char) (flag : Bool),
      (pyTitleData flag l).map Char.toLower = l.map Char.toLower := by
  intro l
  induction l with
  | nil => intro flag; rfl
  | cons c cs ih =>
    intro flag
    simp only [pyTitleData, List.map_cons, ih]
    congr 1
    by_cases ha : c.isAlpha = true
    · rw [if_pos ha]
      cases flag with
      | true => rw [if_pos rfl]; exact toLower_toLower c
      | false => rw [if_neg (by simp)]; exact toLower_toUpper c
    · rw [if_neg ha]

/-- Splitting after the first separator following a separator-free piece. -/
theorem splitOnCharData_append_sep (sep : Char) :
    ∀ (a rest : List Char), sep ∉ a →
      splitOnCharData sep (a ++ sep :: rest) =
        a :: splitOnCharData sep rest := by
  intro a
  induction a with
  | nil =>
    intro rest _
    cases hsp : splitOnCharData sep rest with
    | nil => exact absurd hsp (splitOnCharData_ne_nil sep rest)
    | cons h t => simp [splitOnCharData, hsp]
  | cons c a' ih =>
    intro rest h
    have hc : c ≠ sep := fun hEq => h (hEq ▸ List.mem_cons_self c a')
    rw [List.cons_append]
    simp only [splitOnCharData]
    rw [ih rest (fun hmem => h (List.mem_cons_of_mem c hmem))]
    simp [hc]
/-- Joining the pieces of a split restores the original list. -/
theorem intercalateChar_splitOnCharData (sep : Char) :
    ∀ l : List Char, intercalateChar sep (splitOnCharData sep l) = l := by
  intro l
  induction l with
  | nil => rfl
  | cons c cs ih =>
    simp only [splitOnCharData]
    cases hsp : splitOnCharData sep cs with
    | nil => exact absurd hsp (splitOnCharData_ne_nil sep cs)
    | cons h t =>
      rw [hsp] at ih
      show intercalateChar sep
        (if c = sep then [] :: h :: t else (c :: h) :: t) = c :: cs
      by_cases hc : c = sep
      · rw [if_pos hc]
        subst hc
        simp only [intercalateChar, List.nil_append]
        rw [ih]
      · rw [if_neg hc]
        cases t with
        | nil =>
          simp only [intercalateChar] at ih ⊢
          rw [ih]
        | cons y t' =>
          simp only [intercalateChar] at ih ⊢
          rw [List.cons_append, ih]
/-- A digit character is neither a dot nor an underscore. -/
theorem isDigit_ne (c : Char) (h : c.isDigit = true) : c ≠ '.' ∧ c ≠ '_' :=
  ⟨fun hEq => absurd (hEq ▸ h) (by decide),
   fun hEq => absurd (hEq ▸ h) (by decide)⟩

/-- Splitting a canonical `date_time_description` base on `_` (maxsplit 2)
returns exactly the three components. -/
theorem split2Data_canonical (vd vt desc : List Char)
    (hvd : '_' ∉ vd) (hvt : '_' ∉ vt) :
    split2Data '_' (vd ++ '_' :: (vt ++ '_' :: desc)) = [vd, vt, desc] := by
  unfold split2Data
  rw [splitOnCharData_append_sep '_' vd _ hvd,
    splitOnCharData_append_sep '_' vt _ hvt]
  cases hsp : splitOnCharData '_' desc with
  | nil => exact absurd hsp (splitOnCharData_ne_nil '_' desc)
  | cons h t =>
    show [vd, vt, intercalateChar '_' (h :: t)] = [vd, vt, desc]
    have hjoin := intercalateChar_splitOnCharData '_' desc
    rw [hsp] at hjoin
    rw [hjoin]

/-- Validation and parsing of a canonical filename
`<date>_<time>_<description>.sql` (8-digit date, 6-digit time, dot-free
description). -/
theorem parse_canonical (vd vt desc : List Char)
    (hvd8 : vd.length = 8) (hvdD : ∀ c ∈ vd, c.isDigit = true)
    (hvt6 : vt.length = 6) (hvtD : ∀ c ∈ vt, c.isDigit = true)
    (hdot : '.' ∉ desc) :
    _is_valid_migration_filename
        ⟨(vd ++ '_' :: (vt ++ '_' :: desc)) ++ ('.' :: 's' :: 'q' :: 'l' :: [])⟩
      = true ∧
    _parse_migration_filename
        ⟨(vd ++ '_' :: (vt ++ '_' :: desc)) ++ ('.' :: 's' :: 'q' :: 'l' :: [])⟩
      = (⟨vd ++ '_' :: vt⟩, pyTitle (pyReplaceChar '_' ' ' ⟨desc⟩)) := by
  have hdotbase : '.' ∉ vd ++ '_' :: (vt ++ '_' :: desc) := by
    intro hmem
    rcases List.mem_append.mp hmem with h | h
    · exact (isDigit_ne '.' (hvdD '.' h)).1 rfl
    · rcases List.mem_cons.mp h with h | h
      · exact absurd h (by decide)
      · rcases List.mem_append.mp h with h | h
        · exact (isDigit_ne '.' (hvtD '.' h)).1 rfl
        · rcases List.mem_cons.mp h with h | h
          · exact absurd h (by decide)
          · exact hdot h
  have hbase : removeSqlData
      ((vd ++ '_' :: (vt ++ '_' :: desc)) ++ ('.' :: 's' :: 'q' :: 'l' :: [])) =
      vd ++ '_' :: (vt ++ '_' :: desc) :=
    removeSqlData_append_sql _ hdotbase
  have hsplit : split2Data '_' (vd ++ '_' :: (vt ++ '_' :: desc)) =
      [vd, vt, desc] :=
    split2Data_canonical vd vt desc
      (fun hm => (isDigit_ne '_' (hvdD '_' hm)).2 rfl)
      (fun hm => (isDigit_ne '_' (hvtD '_' hm)).2 rfl)
  constructor
  · unfold _is_valid_migration_filename
    rw [show (String.data
        ⟨(vd ++ '_' :: (vt ++ '_' :: desc)) ++ ('.' :: 's' :: 'q' :: 'l' :: [])⟩) =
        (vd ++ '_' :: (vt ++ '_' :: desc)) ++ ('.' :: 's' :: 'q' :: 'l' :: [])
      from rfl, hbase, hsplit]
    show (decide (vd.length = 8) && vd.all Char.isDigit &&
      decide (vt.length = 6) && vt.all Char.isDigit) = true
    simp only [Bool.and_eq_true, decide_eq_true_eq, List.all_eq_true]
    exact ⟨⟨⟨hvd8, hvdD⟩, hvt6⟩, hvtD⟩
  · unfold _parse_migration_filename
    rw [show (String.data
        ⟨(vd ++ '_' :: (vt ++ '_' :: desc)) ++ ('.' :: 's' :: 'q' :: 'l' :: [])⟩) =
        (vd ++ '_' :: (vt ++ '_' :: desc)) ++ ('.' :: 's' :: 'q' :: 'l' :: [])
      from rfl, hbase, hsplit]

/-- The name stored at apply time, lower-cased with spaces turned back into
underscores, restores the original description — provided the description
has no spaces and no ASCII capitals. -/
theorem name_roundTrip (desc : List Char)
    (hupper : ∀ c ∈ desc, ¬(65 ≤ c.toNat ∧ c.toNat ≤ 90))
    (hspace : ' ' ∉ desc) :
    (pyReplaceChar ' ' '_'
      (pyLower (pyTitle (pyReplaceChar '_' ' ' ⟨desc⟩)))).data = desc := by
  show ((pyTitleData false
      (desc.map (fun c => if c = '_' then ' ' else c))).map Char.toLower).map
      (fun c => if c = ' ' then '_' else c) = desc
  rw [map_toLower_pyTitleData, List.map_map, List.map_map]
  have hid : ∀ c ∈ desc,
      ((fun c => if c = ' ' then '_' else c) ∘ Char.toLower ∘
        (fun c => if c = '_' then ' ' else c)) c = c := by
    intro c hc
    by_cases hu : c = '_'
    · subst hu; decide
    · show (if ((if c = '_' then ' ' else c).toLower) = ' ' then '_'
        else ((if c = '_' then ' ' else c).toLower)) = c
      rw [if_neg hu, toLower_eq_self c (hupper c hc),
        if_neg (fun hEq : c = ' ' => hspace (hEq ▸ hc))]
  calc (desc.map _) = desc.map id := List.map_congr_left hid
    _ = desc := List.map_id desc
/-- Claim C8 (amended): for a forward file `{version}_{description}.sql`
whose description contains no spaces and no ASCII capital letters, the
rollback filename reconstructed from the stored display name is exactly
`{version}_{description}.rollback.sql`.  (Without that restriction the
reconstruction differs — see the counterexample.) -/
theorem rollback_lookup_matches_forward_file (vd vt desc : List Char)
    (hvd8 : vd.length = 8) (hvdD : ∀ c ∈ vd, c.isDigit = true)
    (hvt6 : vt.length = 6) (hvtD : ∀ c ∈ vt, c.isDigit = true)
    (hdot : '.' ∉ desc)
    (hupper : ∀ c ∈ desc, ¬(65 ≤ c.toNat ∧ c.toNat ≤ 90))
    (hspace : ' ' ∉ desc) :
    rollbackFilename
        (_parse_migration_filename
          ⟨(vd ++ '_' :: (vt ++ '_' :: desc)) ++
            ('.' :: 's' :: 'q' :: 'l' :: [])⟩).1
        (_parse_migration_filename
          ⟨(vd ++ '_' :: (vt ++ '_' :: desc)) ++
            ('.' :: 's' :: 'q' :: 'l' :: [])⟩).2 =
      ⟨vd ++ '_' :: vt⟩ ++ "_" ++ ⟨desc⟩ ++ ".rollback.sql" := by
  rw [(parse_canonical vd vt desc hvd8 hvdD hvt6 hvtD hdot).2]
  unfold rollbackFilename
  rw [show pyReplaceChar ' ' '_'
      (pyLower (pyTitle (pyReplaceChar '_' ' ' ⟨desc⟩))) = (⟨desc⟩ : String)
    from String.ext (name_roundTrip desc hupper hspace)]

/-- Witness for C8: `20240101_120000_add_users.sql` pairs with
`20240101_120000_add_users.rollback.sql`. -/
theorem rollback_lookup_matches_forward_file_witness :
    rollbackFilename
        (_parse_migration_filename
          ⟨("20240101".data ++ '_' :: ("120000".data ++ '_' :: "add_users".data)) ++
            ('.' :: 's' :: 'q' :: 'l' :: [])⟩).1
        (_parse_migration_filename
          ⟨("20240101".data ++ '_' :: ("120000".data ++ '_' :: "add_users".data)) ++
            ('.' :: 's' :: 'q' :: 'l' :: [])⟩).2 =
      ⟨"20240101".data ++ '_' :: "120000".data⟩ ++ "_" ++
        ⟨"add_users".data⟩ ++ ".rollback.sql" :=
  rollback_lookup_matches_forward_file "20240101".data "120000".data
    "add_users".data (by decide) (by decide) (by decide) (by decide)
    (by decide) (by decide) (by decide)

/-- Counterexample to C8 as stated: for the forward file
`20240101_120000_add_Users.sql` the stored name is `Add Users`, and the
rollback lookup reconstructs `..._add_users.rollback.sql`, not the original
`..._add_Users.rollback.sql` — the version+description pairing is not
exact for descriptions with capital letters. -/
theorem rollback_lookup_counterexample :
    rollbackFilename
        (_parse_migration_filename "20240101_120000_add_Users.sql").1
        (_parse_migration_filename "20240101_120000_add_Users.sql").2 =
      "20240101_120000_add_users.rollback.sql" ∧
    rollbackFilename
        (_parse_migration_filename "20240101_120000_add_Users.sql").1
        (_parse_migration_filename "20240101_120000_add_Users.sql").2 ≠
      "20240101_120000_add_Users.rollback.sql" := by
  constructor
  · decide
  · decide
/-! ## Claim C5: application order -/

/-- A valid filename parses to a 15-character version
(`8 date digits + '_' + 6 time digits`). -/
theorem valid_version_length (f : String)
    (h : _is_valid_migration_filename f = true) :
    (_parse_migration_filename f).1.data.length = 15 := by
  unfold _is_valid_migration_filename at h
  unfold _parse_migration_filename
  cases hsp : split2Data '_' (removeSqlData f.data) with
  | nil => rw [hsp] at h; exact absurd h (by simp)
  | cons p0 rest =>
    cases rest with
    | nil => rw [hsp] at h; exact absurd h (by simp)
    | cons p1 rest2 =>
      cases rest2 with
      | nil => rw [hsp] at h; exact absurd h (by simp)
      | cons p2 rest3 =>
        rw [hsp] at h
        replace h : (decide (p0.length = 8) && p0.all Char.isDigit &&
          decide (p1.length = 6) && p1.all Char.isDigit) = true := h
        simp only [Bool.and_eq_true, decide_eq_true_eq] at h
        show (String.data ⟨p0 ++ '_' :: p1⟩).length = 15
        rw [show (String.data ⟨p0 ++ '_' :: p1⟩) = p0 ++ '_' :: p1 from rfl]
        simp [h.1.1.1, h.1.2]

/-- Inversion of the discovery loop body. -/
theorem discoverOne_eq_some {f : String × String} {m : Migration}
    (h : discoverOne f = some m) :
    m.filename = f.1 ∧ m.version = (_parse_migration_filename f.1).1 ∧
      _is_valid_migration_filename f.1 = true := by
  unfold discoverOne at h
  by_cases h1 : strEndsWith f.1 ".rollback.sql" = true
  · rw [if_pos h1] at h; exact absurd h (by simp)
  · rw [if_neg h1] at h
    by_cases h2 : _is_valid_migration_filename f.1 = true
    · rw [if_pos h2] at h
      obtain rfl := (Option.some.inj h).symm
      exact ⟨rfl, rfl, h2⟩
    · rw [if_neg h2] at h; exact absurd h (by simp)

/-- Every discovered migration comes from a directory entry: it keeps that
entry's filename, its version is the parse of that filename, and the
filename is valid. -/
theorem mem_discover {files : MigrationsDir} {m : Migration}
    (h : m ∈ _discover_migration_files files) :
    ∃ f ∈ files, m.filename = f.1 ∧
      m.version = (_parse_migration_filename f.1).1 ∧
      _is_valid_migration_filename f.1 = true := by
  unfold _discover_migration_files at h
  rcases List.mem_filterMap.mp h with ⟨f, hf, hsome⟩
  have hmem : f ∈ files :=
    List.mem_of_mem_filter
      ((List.perm_insertionSort fileLe _).mem_iff.mp hf)
  obtain ⟨h1, h2, h3⟩ := discoverOne_eq_some hsome
  exact ⟨f, hmem, h1, h2, h3⟩

/-- Discovered migrations are pairwise strictly ascending by filename
whenever the directory has no duplicate filenames. -/
theorem discover_pairwise_filename_lt (files : MigrationsDir)
    (hnd : (files.map Prod.fst).Nodup) :
    (_discover_migration_files files).Pairwise
      (fun m m' => lexLt m.filename.data m'.filename.data = true) := by
  unfold _discover_migration_files
  have hsorted : (List.insertionSort fileLe
      (files.filter (fun f => strEndsWith f.1 ".sql"))).Pairwise fileLe :=
    List.sorted_insertionSort fileLe _
  have hndkeys : ((List.insertionSort fileLe
      (files.filter (fun f => strEndsWith f.1 ".sql"))).map Prod.fst).Nodup := by
    have hsub : ((files.filter (fun f => strEndsWith f.1 ".sql")).map
        Prod.fst).Sublist (files.map Prod.fst) :=
      (List.filter_sublist files).map Prod.fst
    have hnd2 := hnd.sublist hsub
    have hperm : ((List.insertionSort fileLe
        (files.filter (fun f => strEndsWith f.1 ".sql"))).map Prod.fst).Perm
        ((files.filter (fun f => strEndsWith f.1 ".sql")).map Prod.fst) :=
      (List.perm_insertionSort fileLe _).map Prod.fst
    exact hperm.nodup_iff.mpr hnd2
  have hne : (List.insertionSort fileLe
      (files.filter (fun f => strEndsWith f.1 ".sql"))).Pairwise
      (fun a b => a.1 ≠ b.1) := List.pairwise_map.mp hndkeys
  have hstrict : (List.insertionSort fileLe
      (files.filter (fun f => strEndsWith f.1 ".sql"))).Pairwise
      (fun a b => lexLt a.1.data b.1.data = true) := by
    refine (hsorted.and hne).imp ?_
    rintro a b ⟨hle, hneq⟩
    rw [lexLt_iff]
    rw [fileLe, lexLe_iff] at hle
    refine lt_of_le_of_ne hle ?_
    intro hdata
    exact hneq (String.ext hdata)
  refine List.pairwise_filterMap.mpr ?_
  refine hstrict.imp ?_
  intro a b hab
  intro m hm m' hm'
  rw [(discoverOne_eq_some hm).1, (discoverOne_eq_some hm').1]
  exact hab
/-- A valid filename satisfying `versionIsFilenameStart` decomposes as its
version, an underscore, and the rest. -/
theorem canonical_decomp (f : String)
    (hcanon : versionIsFilenameStart f = true) :
    f.data = (_parse_migration_filename f).1.data ++ '_' :: f.data.drop 16 := by
  have htake : f.data.take 16 =
      (_parse_migration_filename f).1.data ++ ['_'] := by
    unfold versionIsFilenameStart at hcanon
    exact beq_iff_eq.mp hcanon
  calc f.data = f.data.take 16 ++ f.data.drop 16 :=
        (List.take_append_drop 16 f.data).symm
    _ = ((_parse_migration_filename f).1.data ++ ['_']) ++ f.data.drop 16 := by
        rw [htake]
    _ = (_parse_migration_filename f).1.data ++ '_' :: f.data.drop 16 := by
        simp

/-- For canonical valid filenames, filename order is reflected as version
order: the version is a common-length region at the very front. -/
theorem filename_lt_version_le {fA fB : String}
    (hA : _is_valid_migration_filename fA = true)
    (hcA : versionIsFilenameStart fA = true)
    (hB : _is_valid_migration_filename fB = true)
    (hcB : versionIsFilenameStart fB = true)
    (hlt : lexLt fA.data fB.data = true) :
    lexLe (_parse_migration_filename fA).1.data
      (_parse_migration_filename fB).1.data = true := by
  by_contra hcon
  have hltBA : lexLt (_parse_migration_filename fB).1.data
      (_parse_migration_filename fA).1.data = true := by
    revert hcon
    unfold lexLe
    cases lexLt (_parse_migration_filename fB).1.data
      (_parse_migration_filename fA).1.data <;> simp
  have hlen : (_parse_migration_filename fB).1.data.length =
      (_parse_migration_filename fA).1.data.length := by
    rw [valid_version_length fA hA, valid_version_length fB hB]
  have happ := lexLt_append ('_' :: fB.data.drop 16) ('_' :: fA.data.drop 16)
    hlen hltBA
  rw [← canonical_decomp fA hcA, ← canonical_decomp fB hcB] at happ
  rw [lexLt_iff] at hlt happ
  exact absurd hlt (lt_asymm happ)

/-- Versions of discovered migrations are pairwise `≤` in discovery order,
when filenames are distinct and canonical. -/
theorem discover_pairwise_version_le (files : MigrationsDir)
    (hnd : (files.map Prod.fst).Nodup)
    (hcanon : ∀ p ∈ files, _is_valid_migration_filename p.1 = true →
      versionIsFilenameStart p.1 = true) :
    (_discover_migration_files files).Pairwise
      (fun m m' => lexLe m.version.data m'.version.data = true) := by
  refine List.Pairwise.imp_of_mem ?_ (discover_pairwise_filename_lt files hnd)
  intro a b ha hb hab
  obtain ⟨f, hf, hfn, hv, hval⟩ := mem_discover ha
  obtain ⟨g, hg, hgn, hv', hval'⟩ := mem_discover hb
  rw [hv, hv']
  refine filename_lt_version_le hval (hcanon f hf hval) hval'
    (hcanon g hg hval') ?_
  rw [← hfn, ← hgn]
  exact hab

/-- Well-ordered input makes the apply loop's output strictly ascending:
versions already applied are in the ledger, the primary key rejects
duplicates, and the pending list is version-sorted. -/
theorem applyPending_applied_ascending {S : Type}
    (exec : S → List Char → Option S) (checksum : String → String)
    (target : Option String) :
    ∀ (P : List Migration) (st : DBState S) (res : RunResult),
      ((P.map (fun m => m.version)).Pairwise
        (fun a b => lexLe a.data b.data = true)) →
      res.applied_migrations.Pairwise
        (fun a b => lexLt a.data b.data = true) →
      (∀ v ∈ res.applied_migrations, v ∈ appliedVersions st.ledger) →
      (∀ v ∈ res.applied_migrations, ∀ m ∈ P,
        lexLe v.data m.version.data = true) →
      (applyPending exec checksum target st P res).1.applied_migrations.Pairwise
        (fun a b => lexLt a.data b.data = true) := by
  intro P
  induction P with
  | nil => intro st res _ h2 _ _; exact h2
  | cons m rest ih =>
    intro st res hP h2 h3 h4
    have hPtail : ((rest.map (fun m => m.version)).Pairwise
        (fun a b => lexLe a.data b.data = true)) :=
      (List.pairwise_cons.mp hP).2
    have hPhead : ∀ m' ∈ rest,
        lexLe m.version.data m'.version.data = true := by
      intro m' hm'
      exact (List.pairwise_cons.mp hP).1 m'.version
        (List.mem_map.mpr ⟨m', hm', rfl⟩)
    simp only [applyPending]
    by_cases hskip : pastTarget target m.version = true
    · rw [if_pos hskip]
      exact ih st _ hPtail h2 h3
        (fun v hv m' hm' => h4 v hv m' (List.mem_cons_of_mem m hm'))
    · rw [if_neg hskip]
      cases hexec : _execute_migration exec checksum st m with
      | none => exact h2
      | some st' =>
        obtain ⟨hled, hfree⟩ := _execute_migration_eq_some hexec
        have hnotmem : m.version ∉ appliedVersions st.ledger := by
          have helem : (appliedVersions st.ledger).elem m.version = false := hfree
          rw [List.elem_eq_mem] at helem
          exact of_decide_eq_false helem
        refine ih st' _ hPtail ?_ ?_ ?_
        · refine List.pairwise_append.mpr ⟨h2, by simp, ?_⟩
          intro v hv b hb
          rw [List.mem_singleton] at hb
          subst hb
          rw [lexLt_iff]
          have hle : lexLe v.data m.version.data = true :=
            h4 v hv m (List.mem_cons_self m rest)
          rw [lexLe_iff] at hle
          refine lt_of_le_of_ne hle ?_
          intro hdata
          exact hnotmem (String.ext hdata ▸ h3 v hv)
        · intro v hv
          rw [appliedVersions, hled, List.map_append, List.mem_append]
          rcases List.mem_append.mp hv with h | h
          · exact Or.inl (h3 v h)
          · rw [List.mem_singleton] at h
            subst h
            exact Or.inr (by simp)
        · intro v hv m' hm'
          rcases List.mem_append.mp hv with h | h
          · exact h4 v h m' (List.mem_cons_of_mem m hm')
          · rw [List.mem_singleton] at h
            subst h
            exact hPhead m' hm'
/-- In a strictly ascending list, the smaller of two members sits at the
smaller index ("is applied before"). -/
theorem pairwise_lt_indexOf_lt :
    ∀ l : List String,
      l.Pairwise (fun a b => lexLt a.data b.data = true) →
      ∀ a b : String, a ∈ l → b ∈ l → lexLt a.data b.data = true →
        l.indexOf a < l.indexOf b := by
  intro l
  induction l with
  | nil => intro _ a b ha; simp at ha
  | cons x t ih =>
    intro hp a b ha hb hab
    by_cases hxa : x = a
    · subst hxa
      have hba : b ≠ x := by
        intro hEq
        subst hEq
        rw [lexLt_iff] at hab
        exact lt_irrefl _ hab
      have hbt : b ∈ t := by
        rcases List.mem_cons.mp hb with h | h
        · exact absurd h hba
        · exact h
      rw [List.indexOf_cons_self]
      rw [List.indexOf_cons_ne t (fun hEq => hba (hEq.symm))]
      exact Nat.succ_pos _
    · have hat : a ∈ t := by
        rcases List.mem_cons.mp ha with h | h
        · exact absurd h.symm hxa
        · exact h
      by_cases hxb : x = b
      · subst hxb
        have h1 := (List.pairwise_cons.mp hp).1 a hat
        rw [lexLt_iff] at h1 hab
        exact absurd hab (lt_asymm h1)
      · have hbt : b ∈ t := by
          rcases List.mem_cons.mp hb with h | h
          · exact absurd h.symm hxb
          · exact h
        rw [List.indexOf_cons_ne t hxa, List.indexOf_cons_ne t hxb]
        exact Nat.succ_lt_succ (ih (List.pairwise_cons.mp hp).2 a b hat hbt hab)

/-- Two sorted directory listings that are permutations of each other and
have distinct filenames are equal. -/
theorem sorted_eq_of_perm_nodup_keys :
    ∀ {l₁ l₂ : List (String × String)}, l₁.Perm l₂ →
      l₁.Pairwise fileLe → l₂.Pairwise fileLe →
      (l₁.map Prod.fst).Nodup → l₁ = l₂ := by
  intro l₁
  induction l₁ with
  | nil =>
    intro l₂ hp _ _ _
    exact (hp.symm.eq_nil).symm
  | cons a t ih =>
    intro l₂ hp hs1 hs2 hnd
    simp only [List.map_cons, List.nodup_cons] at hnd
    cases l₂ with
    | nil => exact absurd hp.eq_nil (by simp)
    | cons b t₂ =>
      have hab : a = b := by
        have hbmem : b ∈ a :: t := hp.mem_iff.mpr (List.mem_cons_self b t₂)
        rcases List.mem_cons.mp hbmem with h | hbt
        · exact h.symm
        · have hamem : a ∈ b :: t₂ := hp.mem_iff.mp (List.mem_cons_self a t)
          rcases List.mem_cons.mp hamem with h | hat2
          · exact h
          · have h1 : fileLe a b := (List.pairwise_cons.mp hs1).1 b hbt
            have h2 : fileLe b a := (List.pairwise_cons.mp hs2).1 a hat2
            rw [fileLe, lexLe_iff] at h1 h2
            have hk : a.1 = b.1 := String.ext (le_antisymm h1 h2)
            exfalso
            exact hnd.1 (List.mem_map.mpr ⟨b, hbt, hk.symm⟩)
      subst hab
      rw [ih hp.cons_inv (List.pairwise_cons.mp hs1).2
        (List.pairwise_cons.mp hs2).2 hnd.2]

/-- Discovery ignores the order in which the filesystem lists the files. -/
theorem discover_perm_invariant (files files' : MigrationsDir)
    (hperm : files.Perm files') (hnd : (files.map Prod.fst).Nodup) :
    _discover_migration_files files' = _discover_migration_files files := by
  unfold _discover_migration_files
  congr 1
  refine sorted_eq_of_perm_nodup_keys ?_
    (List.sorted_insertionSort fileLe _) (List.sorted_insertionSort fileLe _)
    ?_
  · exact ((List.perm_insertionSort fileLe _).trans
      ((hperm.filter _).symm)).trans (List.perm_insertionSort fileLe _).symm
  · have hnd' : (files'.map Prod.fst).Nodup :=
      ((hperm.map Prod.fst).nodup_iff).mp hnd
    have hsub : ((files'.filter (fun f => strEndsWith f.1 ".sql")).map
        Prod.fst).Sublist (files'.map Prod.fst) :=
      (List.filter_sublist files').map Prod.fst
    exact (((List.perm_insertionSort fileLe _).map Prod.fst).nodup_iff).mpr
      (hnd'.sublist hsub)

/-- A run does not depend on the filesystem listing order. -/
theorem run_perm_invariant {S : Type} (exec : S → List Char → Option S)
    (checksum : String → String) (st : DBState S)
    (files files' : MigrationsDir) (target : Option String)
    (hperm : files.Perm files') (hnd : (files.map Prod.fst).Nodup) :
    run_migrations exec checksum noFaults st files' target =
      run_migrations exec checksum noFaults st files target := by
  rw [run_migrations_noFaults, run_migrations_noFaults]
  rw [show pendingOf st.ledger files' = pendingOf st.ledger files by
    unfold pendingOf
    rw [discover_perm_invariant files files' hperm hnd]]
/-- Claim C5 (amended): provided the directory's filenames are distinct and
every valid filename is canonical (its 15-character version is literally
its first 15 characters — true for every name following the documented
convention; an embedded `.sql` earlier in the name breaks it, see the
counterexample), a run applies migrations in strictly ascending version
order: `applied_migrations` is strictly ascending, for any two applied
migrations the smaller version occupies the earlier position, and the
whole run is invariant under permutations of the filesystem listing. -/
theorem run_applied_ascending {S : Type} (exec : S → List Char → Option S)
    (checksum : String → String) (st : DBState S) (files : MigrationsDir)
    (target : Option String)
    (hnd : (files.map Prod.fst).Nodup)
    (hcanon : ∀ p ∈ files, _is_valid_migration_filename p.1 = true →
      versionIsFilenameStart p.1 = true) :
    (run_migrations exec checksum noFaults st files
        target).1.applied_migrations.Pairwise
      (fun a b => lexLt a.data b.data = true) ∧
    (∀ vA vB, lexLt vA.data vB.data = true →
      vA ∈ (run_migrations exec checksum noFaults st files
        target).1.applied_migrations →
      vB ∈ (run_migrations exec checksum noFaults st files
        target).1.applied_migrations →
      (run_migrations exec checksum noFaults st files
        target).1.applied_migrations.indexOf vA <
        (run_migrations exec checksum noFaults st files
          target).1.applied_migrations.indexOf vB) ∧
    (∀ files', files.Perm files' →
      run_migrations exec checksum noFaults st files' target =
        run_migrations exec checksum noFaults st files target) := by
  have hasc : (run_migrations exec checksum noFaults st files
      target).1.applied_migrations.Pairwise
      (fun a b => lexLt a.data b.data = true) := by
    rw [run_migrations_noFaults]
    by_cases hp : (pendingOf st.ledger files).isEmpty = true
    · rw [if_pos hp]; simp [emptyRunResult]
    · rw [if_neg hp]
      refine applyPending_applied_ascending exec checksum target
        (pendingOf st.ledger files) st emptyRunResult ?_ (by simp [emptyRunResult])
        (by simp [emptyRunResult]) (by simp [emptyRunResult])
      refine List.pairwise_map.mpr ?_
      exact List.Pairwise.sublist (List.filter_sublist _)
        (discover_pairwise_version_le files hnd hcanon)
  exact ⟨hasc,
    fun vA vB hlt hA hB => pairwise_lt_indexOf_lt _ hasc vA vB hA hB hlt,
    fun files' hperm => run_perm_invariant exec checksum st files files'
      target hperm hnd⟩

/-- Witness for C5: two ordinary migrations are applied in ascending
version order. -/
theorem run_applied_ascending_witness :
    (run_migrations (fun (s : Nat) _ => some (s + 1)) (fun _ => "h") noFaults
        ⟨0, []⟩ [("20240102_000000_b.sql", "B1"), ("20240101_000000_a.sql", "A1")]
        none).1.applied_migrations.Pairwise
      (fun a b => lexLt a.data b.data = true) :=
  (run_applied_ascending (fun (s : Nat) _ => some (s + 1)) (fun _ => "h")
    ⟨0, []⟩ [("20240102_000000_b.sql", "B1"), ("20240101_000000_a.sql", "A1")]
    none (by decide) (by decide)).1

/-- Counterexample to C5 as stated: the file `2024.sql0102_120000_b.sql`
passes validation (its embedded `.sql` is removed before the shape check),
parses to version `20240102_120000`, yet sorts *before*
`20240101_120000_a.sql` in the filename order — so the later version is
applied first and `applied_migrations` is not ascending. -/
theorem run_applied_ascending_counterexample :
    (run_migrations (fun (s : Nat) _ => some (s + 1)) (fun _ => "h") noFaults
        ⟨0, []⟩
        [("20240101_120000_a.sql", "A1"), ("2024.sql0102_120000_b.sql", "B1")]
        none).1.applied_migrations =
      ["20240102_120000", "20240101_120000"] ∧
    lexLt "20240101_120000".data "20240102_120000".data = true ∧
    ¬(run_migrations (fun (s : Nat) _ => some (s + 1)) (fun _ => "h") noFaults
        ⟨0, []⟩
        [("20240101_120000_a.sql", "A1"), ("2024.sql0102_120000_b.sql", "B1")]
        none).1.applied_migrations.Pairwise
      (fun a b => lexLt a.data b.data = true) := by
  refine ⟨by decide, by decide, ?_⟩
  intro hpw
  rw [show (run_migrations (fun (s : Nat) _ => some (s + 1)) (fun _ => "h")
      noFaults ⟨0, []⟩
      [("20240101_120000_a.sql", "A1"), ("2024.sql0102_120000_b.sql", "B1")]
      none).1.applied_migrations =
      ["20240102_120000", "20240101_120000"] by decide] at hpw
  have := (List.pairwise_cons.mp hpw).1 "20240101_120000"
    (List.mem_cons_self _ _)
  exact absurd this (by decide)
/-! ## Claim C7: best-effort rollback -/

/-- Loop equation: a version without a rollback script is skipped. -/
theorem rollbackLoop_cons_none {S : Type} {exec : S → List Char → Option S}
    {files : MigrationsDir} {st : DBState S} {v n : String}
    {rest : List (String × String)} {res : RollbackResult}
    (hfile : lookupFile files (rollbackFilename v n) = none) :
    rollbackLoop exec files st ((v, n) :: rest) res =
      rollbackLoop exec files st rest res := by
  simp only [rollbackLoop]
  split
  · rfl
  · next content h => rw [hfile] at h; exact absurd h (by simp)

/-- Loop equation: a failing rollback script halts with only that attempt
rolled back. -/
theorem rollbackLoop_cons_fail {S : Type} {exec : S → List Char → Option S}
    {files : MigrationsDir} {st : DBState S} {v n content : String}
    {rest : List (String × String)} {res : RollbackResult}
    (hfile : lookupFile files (rollbackFilename v n) = some content)
    (hex : execStatements exec st.schema (migrationStatements content) = none) :
    rollbackLoop exec files st ((v, n) :: rest) res =
      ({ res with success := false, error := some (rollbackFailedMsg v) },
        st) := by
  simp only [rollbackLoop]
  split
  · next h => rw [hfile] at h; exact absurd h (by simp)
  · next content' h =>
    rw [hfile] at h
    obtain rfl : content = content' := Option.some.inj h
    split
    · rfl
    · next s' hex' => rw [hex] at hex'; exact absurd hex' (by simp)

/-- Loop equation: a successful rollback deletes the ledger row, commits,
and continues. -/
theorem rollbackLoop_cons_ok {S : Type} {exec : S → List Char → Option S}
    {files : MigrationsDir} {st : DBState S} {v n content : String}
    {s' : S} {rest : List (String × String)} {res : RollbackResult}
    (hfile : lookupFile files (rollbackFilename v n) = some content)
    (hex : execStatements exec st.schema (migrationStatements content) =
      some s') :
    rollbackLoop exec files st ((v, n) :: rest) res =
      rollbackLoop exec files
        ⟨s', st.ledger.filter (fun e => !(e.version == v))⟩ rest
        { res with rolled_back_migrations :=
            res.rolled_back_migrations ++ [v] } := by
  simp only [rollbackLoop]
  split
  · next h => rw [hfile] at h; exact absurd h (by simp)
  · next content' h =>
    rw [hfile] at h
    obtain rfl : content = content' := Option.some.inj h
    split
    · next hex' => rw [hex] at hex'; exact absurd hex' (by simp)
    · next s'' hex' =>
      rw [hex] at hex'
      obtain rfl : s' = s'' := Option.some.inj hex'
      rfl

/-- Fold equation for the committed-steps description. -/
theorem applyRollbackPairs_cons_ok {S : Type} {exec : S → List Char → Option S}
    {files : MigrationsDir} {s : S} {v n content : String} {s' : S}
    {rest : List (String × String)}
    (hfile : lookupFile files (rollbackFilename v n) = some content)
    (hex : execStatements exec s (migrationStatements content) = some s') :
    applyRollbackPairs exec files s ((v, n) :: rest) =
      applyRollbackPairs exec files s' rest := by
  simp only [applyRollbackPairs]
  split
  · next h => rw [hfile] at h; exact absurd h (by simp)
  · next content' h =>
    rw [hfile] at h
    obtain rfl : content = content' := Option.some.inj h
    split
    · next hex' => rw [hex] at hex'; exact absurd hex' (by simp)
    · next s'' hex' =>
      rw [hex] at hex'
      obtain rfl : s' = s'' := Option.some.inj hex'
      rfl
/-- Fold equation: a missing script refutes the committed description. -/
theorem applyRollbackPairs_cons_noScript {S : Type}
    {exec : S → List Char → Option S} {files : MigrationsDir} {s : S}
    {v n : String} {rest : List (String × String)}
    (hfile : lookupFile files (rollbackFilename v n) = none) :
    applyRollbackPairs exec files s ((v, n) :: rest) = none := by
  simp only [applyRollbackPairs]
  split
  · rfl
  · next content h => rw [hfile] at h; exact absurd h (by simp)

/-- Fold equation: a failing script refutes the committed description. -/
theorem applyRollbackPairs_cons_execFail {S : Type}
    {exec : S → List Char → Option S} {files : MigrationsDir} {s : S}
    {v n content : String} {rest : List (String × String)}
    (hfile : lookupFile files (rollbackFilename v n) = some content)
    (hex : execStatements exec s (migrationStatements content) = none) :
    applyRollbackPairs exec files s ((v, n) :: rest) = none := by
  simp only [applyRollbackPairs]
  split
  · next h => rw [hfile] at h
  · next content' h =>
    rw [hfile] at h
    obtain rfl : content = content' := Option.some.inj h
    split
    · rfl
    · next s2 hex' => rw [hex] at hex'; exact absurd hex' (by simp)

/-- Every pair of a successful committed description has its script. -/
theorem applyRollbackPairs_scripts {S : Type} (exec : S → List Char → Option S)
    (files : MigrationsDir) :
    ∀ (pairs : List (String × String)) (s s' : S),
      applyRollbackPairs exec files s pairs = some s' →
      ∀ p ∈ pairs, lookupFile files (rollbackFilename p.1 p.2) ≠ none := by
  intro pairs
  induction pairs with
  | nil => intro s s' _ p hp; simp at hp
  | cons q rest ih =>
    intro s s' h p hp
    obtain ⟨v, n⟩ := q
    cases hfile : lookupFile files (rollbackFilename v n) with
    | none =>
      rw [applyRollbackPairs_cons_noScript hfile] at h
      exact absurd h (by simp)
    | some content =>
      cases hex : execStatements exec s (migrationStatements content) with
      | none =>
        rw [applyRollbackPairs_cons_execFail hfile hex] at h
        exact absurd h (by simp)
      | some s1 =>
        rcases List.mem_cons.mp hp with h1 | h1
        · subst h1; rw [hfile]; simp
        · exact ih s1 s' (by rw [← applyRollbackPairs_cons_ok hfile hex]; exact h)
            p h1

/-- Deleting one version then filtering out a set of versions equals
filtering out the enlarged set. -/
theorem filter_version_cons (L : List String) (v : String)
    (l : List LedgerEntry) :
    (l.filter (fun e => !(e.version == v))).filter
        (fun e => !(L.contains e.version)) =
      l.filter (fun e => !((v :: L).contains e.version)) := by
  rw [List.filter_filter]
  apply List.filter_congr
  intro e _
  cases hc : e.version == v with
  | true =>
    have hv : e.version = v := beq_iff_eq.mp hc
    simp [hc, hv, List.contains, List.elem_eq_mem]
  | false =>
    have hv : e.version ≠ v := by
      intro hEq
      rw [hEq] at hc
      simp at hc
    simp [hc, List.contains, List.elem_eq_mem, List.mem_cons, hv]
/-- Full characterisation of the rollback loop: some sublist `pairs` of
the worklist was rolled back — those versions were appended to the result,
exactly their ledger rows were deleted, and the final schema is obtained
by executing exactly their scripts in order.  Either the loop ran to the
end (result flags unchanged, and every worklist version with a script was
rolled back), or it halted at a failing script, leaving everything after
the failure untouched. -/
theorem rollbackLoop_spec {S : Type} (exec : S → List Char → Option S)
    (files : MigrationsDir) :
    ∀ (P : List (String × String)) (st : DBState S) (res : RollbackResult),
      ∃ pairs : List (String × String),
        pairs.Sublist P ∧
        (rollbackLoop exec files st P res).1.rolled_back_migrations =
          res.rolled_back_migrations ++ pairs.map Prod.fst ∧
        (rollbackLoop exec files st P res).2.ledger =
          st.ledger.filter
            (fun e => !((pairs.map Prod.fst).contains e.version)) ∧
        applyRollbackPairs exec files st.schema pairs =
          some (rollbackLoop exec files st P res).2.schema ∧
        (((rollbackLoop exec files st P res).1.success = res.success ∧
          (rollbackLoop exec files st P res).1.error = res.error ∧
          (∀ p ∈ P, lookupFile files (rollbackFilename p.1 p.2) ≠ none →
            p ∈ pairs)) ∨
         ((rollbackLoop exec files st P res).1.success = false ∧
          ∃ v n P₁ P₂, P = P₁ ++ (v, n) :: P₂ ∧
            (rollbackLoop exec files st P res).1.error =
              some (rollbackFailedMsg v) ∧
            pairs.Sublist P₁ ∧
            lookupFile files (rollbackFilename v n) ≠ none)) := by
  intro P
  induction P with
  | nil =>
    intro st res
    refine ⟨[], List.nil_sublist _, by simp [rollbackLoop],
      by simp [rollbackLoop], by simp [rollbackLoop, applyRollbackPairs],
      Or.inl ⟨rfl, rfl, by simp⟩⟩
  | cons q rest ih =>
    intro st res
    obtain ⟨v, n⟩ := q
    cases hfile : lookupFile files (rollbackFilename v n) with
    | none =>
      obtain ⟨pairs, hsub, h1, h2, h3, h4⟩ := ih st res
      rw [rollbackLoop_cons_none hfile]
      refine ⟨pairs, hsub.cons _, h1, h2, h3, ?_⟩
      rcases h4 with ⟨hs, he, hcomp⟩ | ⟨hs, v', n', P₁, P₂, hsplit, herr, hsubP, hscr⟩
      · refine Or.inl ⟨hs, he, ?_⟩
        intro p hp hscript
        rcases List.mem_cons.mp hp with h | h
        · subst h
          exact absurd hfile hscript
        · exact hcomp p h hscript
      · exact Or.inr ⟨hs, v', n', (v, n) :: P₁, P₂, by rw [hsplit, List.cons_append], herr,
          hsubP.cons _, hscr⟩
    | some content =>
      cases hex : execStatements exec st.schema (migrationStatements content) with
      | none =>
        rw [rollbackLoop_cons_fail hfile hex]
        refine ⟨[], List.nil_sublist _, by simp, by simp,
          by simp [applyRollbackPairs], ?_⟩
        refine Or.inr ⟨rfl, v, n, [], rest, by simp, rfl, List.nil_sublist _,
          by rw [hfile]; simp⟩
      | some s1 =>
        rw [rollbackLoop_cons_ok hfile hex]
        obtain ⟨pairs, hsub, h1, h2, h3, h4⟩ :=
          ih ⟨s1, st.ledger.filter (fun e => !(e.version == v))⟩
            { res with rolled_back_migrations :=
                res.rolled_back_migrations ++ [v] }
        refine ⟨(v, n) :: pairs, hsub.cons₂ _, ?_, ?_, ?_, ?_⟩
        · rw [h1]
          simp [List.append_assoc]
        · rw [h2]
          exact filter_version_cons (pairs.map Prod.fst) v st.ledger
        · rw [applyRollbackPairs_cons_ok hfile hex]
          exact h3
        · rcases h4 with ⟨hs, he, hcomp⟩ | ⟨hs, v', n', P₁, P₂, hsplit, herr, hsubP, hscr⟩
          · refine Or.inl ⟨hs, he, ?_⟩
            intro p hp hscript
            rcases List.mem_cons.mp hp with h | h
            · subst h
              exact List.mem_cons_self _ _
            · exact List.mem_cons_of_mem _ (hcomp p h hscript)
          · exact Or.inr ⟨hs, v', n', (v, n) :: P₁, P₂, by rw [hsplit, List.cons_append], herr,
              hsubP.cons₂ _, hscr⟩
/-- `rollback_migration` with a healthy connection and `SELECT` reduces to
the sorted worklist plus the loop. -/
theorem rollback_migration_noFaults {S : Type} (exec : S → List Char → Option S)
    (st : DBState S) (files : MigrationsDir) (target : String) :
    rollback_migration exec none none st files target =
      (if (List.insertionSort pairDesc
          ((st.ledger.filter (fun e => lexLt target.data e.version.data)).map
            (fun e => (e.version, e.name)))).isEmpty
       then (emptyRollbackResult, st)
       else rollbackLoop exec files st
         (List.insertionSort pairDesc
           ((st.ledger.filter (fun e => lexLt target.data e.version.data)).map
             (fun e => (e.version, e.name)))) emptyRollbackResult) := rfl

/-- Every worklist pair is a ledger row with version above the target. -/
theorem mem_rollback_worklist {ledger : List LedgerEntry} {target : String}
    {p : String × String}
    (hp : p ∈ List.insertionSort pairDesc
      ((ledger.filter (fun e => lexLt target.data e.version.data)).map
        (fun e => (e.version, e.name)))) :
    ∃ e ∈ ledger, e.version = p.1 ∧ e.name = p.2 ∧
      lexLt target.data e.version.data = true := by
  rw [(List.perm_insertionSort pairDesc _).mem_iff] at hp
  rcases List.mem_map.mp hp with ⟨e, he, hpe⟩
  obtain ⟨hel, hflt⟩ := List.mem_filter.mp he
  exact ⟨e, hel, by rw [← hpe], by rw [← hpe], hflt⟩

/-- Conversely, every ledger row above the target is on the worklist. -/
theorem rollback_worklist_mem {ledger : List LedgerEntry} {target : String}
    {e : LedgerEntry} (he : e ∈ ledger)
    (hgt : lexLt target.data e.version.data = true) :
    (e.version, e.name) ∈ List.insertionSort pairDesc
      ((ledger.filter (fun e => lexLt target.data e.version.data)).map
        (fun e => (e.version, e.name))) := by
  rw [(List.perm_insertionSort pairDesc _).mem_iff]
  exact List.mem_map.mpr ⟨e, List.mem_filter.mpr ⟨he, hgt⟩, rfl⟩

/-- The worklist is strictly descending by version when the ledger has no
duplicate versions (its `PRIMARY KEY`). -/
theorem rollback_worklist_sorted (ledger : List LedgerEntry) (target : String)
    (hnodup : (ledger.map (fun e => e.version)).Nodup) :
    (List.insertionSort pairDesc
      ((ledger.filter (fun e => lexLt target.data e.version.data)).map
        (fun e => (e.version, e.name)))).Pairwise
      (fun a b => lexLt b.1.data a.1.data = true) := by
  have hsorted := List.sorted_insertionSort pairDesc
    ((ledger.filter (fun e => lexLt target.data e.version.data)).map
      (fun e => (e.version, e.name)))
  have hkeys : ((List.insertionSort pairDesc
      ((ledger.filter (fun e => lexLt target.data e.version.data)).map
        (fun e => (e.version, e.name)))).map Prod.fst).Nodup := by
    refine (((List.perm_insertionSort pairDesc _).map Prod.fst).nodup_iff).mpr ?_
    rw [List.map_map]
    have hsub : ((ledger.filter
        (fun e => lexLt target.data e.version.data)).map
        (Prod.fst ∘ fun e => (e.version, e.name))).Sublist
        (ledger.map (fun e => e.version)) :=
      (List.filter_sublist ledger).map _
    exact hnodup.sublist hsub
  have hne := List.pairwise_map.mp hkeys
  refine (hsorted.and hne).imp ?_
  rintro a b ⟨hle, hneq⟩
  rw [pairDesc, lexLe_iff] at hle
  rw [lexLt_iff]
  refine lt_of_le_of_ne hle ?_
  intro hdata
  exact hneq (String.ext hdata.symm)
/-- Claim C7: `rollback_migration target` (healthy connection) processes
exactly the ledger versions strictly greater than `target`, in descending
version order: the rolled-back list is strictly descending and consists of
ledger versions above the target whose rollback script exists; exactly
those ledger rows are deleted (a version lacking a script keeps its row,
and processing continues past it — on a fully successful run every
above-target version with a script is rolled back); the final schema is
obtained by committing exactly the successful per-version transactions;
and a failing script halts the sequence with `success = false` and an
error naming that version, everything older (smaller) left untouched and
only that one attempt rolled back. -/
theorem rollback_best_effort {S : Type} (exec : S → List Char → Option S)
    (st : DBState S) (files : MigrationsDir) (target : String)
    (res : RollbackResult) (st' : DBState S)
    (hnodup : (st.ledger.map (fun e => e.version)).Nodup)
    (hrun : rollback_migration exec none none st files target = (res, st')) :
    res.rolled_back_migrations.Pairwise
      (fun a b => lexLt b.data a.data = true) ∧
    (∀ v ∈ res.rolled_back_migrations, lexLt target.data v.data = true ∧
      ∃ e ∈ st.ledger, e.version = v ∧
        lookupFile files (rollbackFilename e.version e.name) ≠ none) ∧
    st'.ledger = st.ledger.filter
      (fun e => !(res.rolled_back_migrations.contains e.version)) ∧
    (∃ pairs : List (String × String),
      pairs.map Prod.fst = res.rolled_back_migrations ∧
      applyRollbackPairs exec files st.schema pairs = some st'.schema) ∧
    (res.success = true → ∀ e ∈ st.ledger,
      lexLt target.data e.version.data = true →
      lookupFile files (rollbackFilename e.version e.name) ≠ none →
      e.version ∈ res.rolled_back_migrations) ∧
    (res.success = false → ∃ v, res.error = some (rollbackFailedMsg v) ∧
      lexLt target.data v.data = true ∧
      v ∈ st.ledger.map (fun e => e.version) ∧
      v ∉ res.rolled_back_migrations ∧
      ∀ w ∈ res.rolled_back_migrations, lexLt v.data w.data = true) := by
  rw [rollback_migration_noFaults] at hrun
  by_cases hP : (List.insertionSort pairDesc
      ((st.ledger.filter (fun e => lexLt target.data e.version.data)).map
        (fun e => (e.version, e.name)))).isEmpty = true
  · rw [if_pos hP] at hrun
    obtain ⟨hres, hst'⟩ := Prod.mk.injEq .. ▸ hrun
    subst hres
    subst hst'
    have hempty : ∀ e ∈ st.ledger,
        lexLt target.data e.version.data = true → False := by
      intro e he hgt
      have hmem := rollback_worklist_mem he hgt
      rw [List.isEmpty_iff] at hP
      rw [hP] at hmem
      simp at hmem
    refine ⟨by simp [emptyRollbackResult], by simp [emptyRollbackResult],
      ?_, ⟨[], rfl, rfl⟩, ?_, ?_⟩
    · show st.ledger = st.ledger.filter
        (fun e => !((List.contains [] e.version)))
      simp
    · intro _ e he hgt _
      exact (hempty e he hgt).elim
    · intro hfalse
      exact absurd hfalse (by simp [emptyRollbackResult])
  · rw [if_neg hP] at hrun
    obtain ⟨pairs, hsub, h1, h2, h3, h4⟩ := rollbackLoop_spec exec files
      (List.insertionSort pairDesc
        ((st.ledger.filter (fun e => lexLt target.data e.version.data)).map
          (fun e => (e.version, e.name)))) st emptyRollbackResult
    simp only [hrun] at h1 h2 h3 h4
    have hpw := rollback_worklist_sorted st.ledger target hnodup
    have hrolled : res.rolled_back_migrations = pairs.map Prod.fst := by
      simpa [emptyRollbackResult] using h1
    refine ⟨?_, ?_, ?_, ⟨pairs, hrolled.symm, h3⟩, ?_, ?_⟩
    · rw [hrolled]
      exact List.pairwise_map.mpr (List.Pairwise.sublist hsub hpw)
    · intro v hv
      rw [hrolled] at hv
      rcases List.mem_map.mp hv with ⟨p, hpPairs, rfl⟩
      obtain ⟨e, he, hev, hen, hgt⟩ := mem_rollback_worklist (hsub.subset hpPairs)
      have hscript := applyRollbackPairs_scripts exec files pairs _ _ h3 p hpPairs
      exact ⟨hev ▸ hgt, e, he, hev, by rw [hev, hen]; exact hscript⟩
    · rw [hrolled]
      exact h2
    · intro hsucc e he hgt hscript
      rcases h4 with ⟨_, _, hcomp⟩ | ⟨hs, _⟩
      · have hpmem := rollback_worklist_mem he hgt
        have := hcomp (e.version, e.name) hpmem hscript
        rw [hrolled]
        exact List.mem_map.mpr ⟨(e.version, e.name), this, rfl⟩
      · rw [hsucc] at hs
        exact absurd hs (by simp)
    · intro hfail
      rcases h4 with ⟨hs, _, _⟩ | ⟨_, v, n, P₁, P₂, hsplit, herr, hsubP, hscr⟩
      · rw [hfail] at hs
        exact absurd hs.symm (by simp [emptyRollbackResult])
      · obtain ⟨e, he, hev, hen, hgt⟩ := mem_rollback_worklist
          (show (v, n) ∈ _ by
            rw [hsplit]
            exact List.mem_append.mpr (Or.inr (List.mem_cons_self _ _)))
        have hcross : ∀ p ∈ P₁, lexLt v.data p.1.data = true := by
          rw [hsplit] at hpw
          intro p hp
          exact (List.pairwise_append.mp hpw).2.2 p hp (v, n)
            (List.mem_cons_self _ _)
        refine ⟨v, herr, ?_, ?_, ?_, ?_⟩
        · have hv' : e.version = v := hev
          exact hv' ▸ hgt
        · exact List.mem_map.mpr ⟨e, he, hev⟩
        · rw [hrolled]
          intro hmem
          rcases List.mem_map.mp hmem with ⟨p, hpPairs, hpv⟩
          have := hcross p (hsubP.subset hpPairs)
          rw [hpv] at this
          rw [lexLt_iff] at this
          exact lt_irrefl _ this
        · intro w hw
          rw [hrolled] at hw
          rcases List.mem_map.mp hw with ⟨p, hpPairs, rfl⟩
          exact hcross p (hsubP.subset hpPairs)
/-- Witness for C7: versions `20240103` (script present) and `20240102`
(no script) sit above the target; the rollback list is strictly
descending, `20240103` is rolled back and deleted, `20240102` survives. -/
theorem rollback_best_effort_witness :
    (rollback_migration (fun (s : Nat) _ => some (s + 1)) none none
        (⟨0, [⟨"20240101_000000", "A", "h", 0⟩,
              ⟨"20240102_000000", "No Script", "h", 0⟩,
              ⟨"20240103_000000", "C", "h", 0⟩]⟩ : DBState Nat)
        [("20240103_000000_c.rollback.sql", "UNDO C")]
        "20240101_000000").1.rolled_back_migrations.Pairwise
      (fun a b => lexLt b.data a.data = true) :=
  (rollback_best_effort (fun (s : Nat) _ => some (s + 1))
    (⟨0, [⟨"20240101_000000", "A", "h", 0⟩,
          ⟨"20240102_000000", "No Script", "h", 0⟩,
          ⟨"20240103_000000", "C", "h", 0⟩]⟩ : DBState Nat)
    [("20240103_000000_c.rollback.sql", "UNDO C")]
    "20240101_000000" _ _ (by decide) rfl).1

end MigrationRunner
